import Mathlib

/-
Verification of the UncertaintyCS242 Bayesian-network tool.

This file gives a shallow embedding of the two core source files,
`bif_converter.py` and `network_generator.py`, and proves the stated
properties about them.

Modelling conventions, used throughout:
* Python dicts are association lists `List (κ × α)` preserving insertion
  order; `dictSet` overwrites in place or appends a fresh key at the end,
  exactly as CPython dicts do.
* On the generator side every variable is named `X<i>`; the embedding
  represents the name by its numeric suffix `i : ℕ` (so `int(x[1:])`,
  used as a sort key in the source, is the name itself).
* Python floats are modelled by `ℚ` (an exact ordered field); the claims
  about probabilities are stated "up to floating rounding", which the
  exact model realises as exact identities.
* `random.random()` is modelled by an ambient stream `ℕ → ℚ` of draws,
  indexed by the order in which the source consumes them.
* Loops that are not structurally recursive are written with an explicit
  fuel argument; the fuel supplied at each call site strictly exceeds a
  loop measure that decreases by at least one per iteration, so the
  fuel-exhaustion branch is unreachable (fuel-sufficiency lemmas are
  proved below where a claim depends on the loop exiting at its guard).
-/

/-! ## Python dicts as insertion-ordered association lists -/

/-- Python `d[k] = v`: overwrite the existing binding in place, else append
a fresh key at the end (CPython preserves insertion order). -/
def dictSet {κ α : Type} [DecidableEq κ] : List (κ × α) → κ → α → List (κ × α)
  | [], k, v => [(k, v)]
  | (k1, v1) :: rest, k, v =>
    if k1 = k then (k, v) :: rest else (k1, v1) :: dictSet rest k v

/-- Python `d.get(k)` / `d[k]` lookup (first binding; keys are unique in
every dict the source builds). -/
def dictGet? {κ α : Type} [DecidableEq κ] : List (κ × α) → κ → Option α
  | [], _ => none
  | (k1, v1) :: rest, k => if k1 = k then some v1 else dictGet? rest k

/-- Python `d.get(k, v0)`. -/
def dictGetD {κ α : Type} [DecidableEq κ] (d : List (κ × α)) (k : κ) (v0 : α) : α :=
  (dictGet? d k).getD v0

/-- In-place update of the value at an existing key, as in Python
`d[k] += 1` or `d[k].append(x)`.  A missing key is a no-op here; at every
call site in the source the key is present (Python would raise `KeyError`
otherwise, and the theorems below carry hypotheses keeping keys present). -/
def dictModify {κ α : Type} [DecidableEq κ] : List (κ × α) → κ → (α → α) → List (κ × α)
  | [], _, _ => []
  | (k1, v1) :: rest, k, f =>
    if k1 = k then (k1, f v1) :: rest else (k1, v1) :: dictModify rest k f

/-- Python `d.setdefault(k, []).append(v)`. -/
def dictSetdefaultApp {κ α : Type} [DecidableEq κ]
    (d : List (κ × List α)) (k : κ) (v : α) : List (κ × List α) :=
  if (dictGet? d k).isSome then dictModify d k (fun l => l ++ [v]) else d ++ [(k, [v])]

/-- `list(d.keys())`, in insertion order. -/
def dictKeys {κ α : Type} (d : List (κ × α)) : List κ :=
  d.map Prod.fst

/-! ### Basic dict lemmas -/

theorem dictGet?_eq_none {κ α : Type} [DecidableEq κ] (d : List (κ × α)) (k : κ) :
    dictGet? d k = none ↔ k ∉ dictKeys d := by
  induction d with
  | nil => simp [dictGet?, dictKeys]
  | cons hd tl ih =>
    obtain ⟨k1, v1⟩ := hd
    by_cases h : k1 = k
    · subst h
      simp [dictGet?, dictKeys]
    · simp [dictGet?, dictKeys, h, ih, Ne.symm h]

theorem dictGet?_isSome {κ α : Type} [DecidableEq κ] (d : List (κ × α)) (k : κ) :
    (dictGet? d k).isSome = true ↔ k ∈ dictKeys d := by
  rw [Option.isSome_iff_ne_none]
  rw [ne_eq, dictGet?_eq_none]
  simp

theorem dictKeys_dictSet {κ α : Type} [DecidableEq κ] (d : List (κ × α)) (k : κ) (v : α)
    (h : k ∈ dictKeys d) : dictKeys (dictSet d k v) = dictKeys d := by
  induction d with
  | nil => simp [dictKeys] at h
  | cons hd tl ih =>
    obtain ⟨k1, v1⟩ := hd
    by_cases hk : k1 = k
    · simp [dictSet, hk, dictKeys]
    · have h2 : k ∈ dictKeys tl := by
        simp only [dictKeys, List.map_cons, List.mem_cons] at h
        rcases h with h | h
        · exact absurd h.symm hk
        · exact h
      simp only [dictSet, hk, if_false, dictKeys, List.map_cons]
      exact congrArg (List.cons k1) (ih h2)

theorem dictKeys_dictModify {κ α : Type} [DecidableEq κ] (d : List (κ × α)) (k : κ)
    (f : α → α) : dictKeys (dictModify d k f) = dictKeys d := by
  induction d with
  | nil => rfl
  | cons hd tl ih =>
    obtain ⟨k1, v1⟩ := hd
    by_cases hk : k1 = k <;> simp [dictModify, hk, dictKeys] at ih ⊢ <;> exact ih

theorem dictGet?_dictSet_self {κ α : Type} [DecidableEq κ] (d : List (κ × α)) (k : κ) (v : α) :
    dictGet? (dictSet d k v) k = some v := by
  induction d with
  | nil => simp [dictSet, dictGet?]
  | cons hd tl ih =>
    obtain ⟨k1, v1⟩ := hd
    by_cases hk : k1 = k <;> simp [dictSet, dictGet?, hk, ih]

theorem dictGet?_dictSet_ne {κ α : Type} [DecidableEq κ] (d : List (κ × α)) (k k2 : κ) (v : α)
    (h : k ≠ k2) : dictGet? (dictSet d k v) k2 = dictGet? d k2 := by
  induction d with
  | nil => simp [dictSet, dictGet?, h]
  | cons hd tl ih =>
    obtain ⟨k1, v1⟩ := hd
    by_cases hk : k1 = k
    · subst hk
      simp [dictSet, dictGet?, h]
    · simp only [dictSet, hk, if_false]
      by_cases hk2 : k1 = k2 <;> simp [dictGet?, hk2, ih]

theorem dictGet?_dictModify_self {κ α : Type} [DecidableEq κ] (d : List (κ × α)) (k : κ)
    (f : α → α) : dictGet? (dictModify d k f) k = (dictGet? d k).map f := by
  induction d with
  | nil => simp [dictModify, dictGet?]
  | cons hd tl ih =>
    obtain ⟨k1, v1⟩ := hd
    by_cases hk : k1 = k <;> simp [dictModify, dictGet?, hk, ih]

theorem dictGet?_dictModify_ne {κ α : Type} [DecidableEq κ] (d : List (κ × α)) (k k2 : κ)
    (f : α → α) (h : k ≠ k2) : dictGet? (dictModify d k f) k2 = dictGet? d k2 := by
  induction d with
  | nil => rfl
  | cons hd tl ih =>
    obtain ⟨k1, v1⟩ := hd
    by_cases hk : k1 = k
    · subst hk
      simp [dictModify, dictGet?, h]
    · by_cases hk2 : k1 = k2
      · subst hk2
        simp [dictModify, dictGet?, hk]
      · simp [dictModify, dictGet?, hk, hk2, ih]

/-- Every binding of a dict after `dictSet` is an old binding or the new one. -/
theorem mem_dictSet {κ α : Type} [DecidableEq κ] (d : List (κ × α)) (k : κ) (v : α)
    (x : κ × α) (hx : x ∈ dictSet d k v) : x ∈ d ∨ x = (k, v) := by
  induction d with
  | nil => simp [dictSet] at hx; right; exact hx
  | cons hd tl ih =>
    obtain ⟨k1, v1⟩ := hd
    by_cases hk : k1 = k
    · simp only [dictSet, hk, if_true, List.mem_cons] at hx
      rcases hx with hx | hx
      · right; exact hx
      · left; exact List.mem_cons_of_mem _ hx
    · simp only [dictSet, hk, if_false, List.mem_cons] at hx
      rcases hx with hx | hx
      · left; exact hx ▸ List.mem_cons_self _ _
      · rcases ih hx with h | h
        · left; exact List.mem_cons_of_mem _ h
        · right; exact h

theorem mem_dictModify {κ α : Type} [DecidableEq κ] (d : List (κ × α)) (k : κ) (f : α → α)
    (x : κ × α) (hx : x ∈ dictModify d k f) :
    x ∈ d ∨ ∃ v, (x.1, v) ∈ d ∧ x = (x.1, f v) := by
  induction d with
  | nil => simp [dictModify] at hx
  | cons hd tl ih =>
    obtain ⟨k1, v1⟩ := hd
    by_cases hk : k1 = k
    · simp only [dictModify, hk, if_true, List.mem_cons] at hx
      rcases hx with hx | hx
      · right
        subst hk
        refine ⟨v1, ?_, ?_⟩
        · simp [hx]
        · simp [hx]
      · left; exact List.mem_cons_of_mem _ hx
    · simp only [dictModify, hk, if_false, List.mem_cons] at hx
      rcases hx with hx | hx
      · left; exact hx ▸ List.mem_cons_self _ _
      · rcases ih hx with h | h
        · left; exact List.mem_cons_of_mem _ h
        · right
          obtain ⟨v, hv, he⟩ := h
          exact ⟨v, List.mem_cons_of_mem _ hv, he⟩

/-! ## The lexicographic enumerator (`bif_converter.generate_lexicographic_order`,
`network_generator.lexicographic_assignments`)

`itertools.product(*domains)` produces tuples (modelled as lists) with the
**last** factor varying fastest: the documented equivalent is the nested
loop with the first factor outermost. -/

/-- `list(itertools.product(*ds))`. -/
def itertools_product {α : Type} : List (List α) → List (List α)
  | [] => [[]]
  | d :: rest => d.flatMap (fun x => (itertools_product rest).map (fun t => x :: t))

/-- `bif_converter.generate_lexicographic_order(parents, var_domains)`.
The dict subscript `var_domains[p]` raises `KeyError` for a missing key,
modelled by `Option`. -/
def generate_lexicographic_order {κ α : Type} [DecidableEq κ]
    (parents : List κ) (var_domains : List (κ × List α)) : Option (List (List α)) := do
  let domains ← parents.mapM (fun p => dictGet? var_domains p)
  pure (itertools_product domains)

/-- `network_generator.lexicographic_assignments(parents, var_domains)`:
textually the same algorithm as `generate_lexicographic_order`. -/
def lexicographic_assignments {κ α : Type} [DecidableEq κ]
    (parents : List κ) (var_domains : List (κ × List α)) : Option (List (List α)) := do
  let domains ← parents.mapM (fun p => dictGet? var_domains p)
  pure (itertools_product domains)

/-- Number of assignments: the product of the domain sizes. -/
def domainsProd {α : Type} (ds : List (List α)) : ℕ :=
  (ds.map List.length).prod

/-- Specification-side description of row-major order with the last factor
varying fastest: the assignment at position `k` picks, from each domain,
the digit of `k` in the mixed-radix system whose stride for a factor is
the product of the sizes of all *later* factors. -/
def rowMajorAt {α : Type} (a0 : α) : List (List α) → ℕ → List α
  | [], _ => []
  | d :: rest, k => d.getD (k / domainsProd rest) a0 :: rowMajorAt a0 rest (k % domainsProd rest)

theorem flatMap_range_map {α β : Type} (P : ℕ) (d : List α) (f : α → ℕ → β) (a0 : α) :
    d.flatMap (fun x => (List.range P).map (f x)) =
      (List.range (d.length * P)).map (fun k => f (d.getD (k / P) a0) (k % P)) := by
  rcases Nat.eq_zero_or_pos P with hP | hP
  · subst hP
    simp
  · induction d with
    | nil => simp
    | cons x d ih =>
      have hrange : List.range ((x :: d).length * P) =
          List.range P ++ (List.range (d.length * P)).map (fun k => P + k) := by
        have : (x :: d).length * P = P + d.length * P := by
          simp [List.length_cons, Nat.succ_mul, Nat.add_comm]
        rw [this, List.range_add]
      rw [List.flatMap_cons, ih, hrange, List.map_append, List.map_map]
      congr 1
      · apply List.map_congr_left
        intro k hk
        rw [List.mem_range] at hk
        rw [Nat.div_eq_of_lt hk, Nat.mod_eq_of_lt hk]
        rfl
      · apply List.map_congr_left
        intro k _
        have hdiv : (P + k) / P = k / P + 1 := by
          rw [Nat.add_comm, Nat.add_div_right _ hP]
        have hmod : (P + k) % P = k % P := Nat.add_mod_left P k
        simp only [Function.comp_apply, hdiv, hmod]
        rfl

theorem itertools_product_eq_rowMajor {α : Type} (a0 : α) (ds : List (List α)) :
    itertools_product ds = (List.range (domainsProd ds)).map (rowMajorAt a0 ds) := by
  induction ds with
  | nil => rfl
  | cons d rest ih =>
    show d.flatMap (fun x => (itertools_product rest).map (fun t => x :: t)) = _
    rw [ih]
    have : (fun x => ((List.range (domainsProd rest)).map (rowMajorAt a0 rest)).map
        (fun t => x :: t)) = fun x => (List.range (domainsProd rest)).map
        (fun k => x :: rowMajorAt a0 rest k) := by
      funext x
      rw [List.map_map]
      rfl
    rw [this, flatMap_range_map (domainsProd rest) d (fun x k => x :: rowMajorAt a0 rest k) a0]
    have hd : domainsProd (d :: rest) = d.length * domainsProd rest := by
      simp [domainsProd]
    rw [hd]
    rfl

/-- C1: the enumerator returns exactly the Cartesian product of the parent
domains in row-major order with the last parent varying fastest, and in
particular gives the documented six-row order for parents `[A,B]` with
domains `[a1,a2]`, `[b1,b2,b3]`. -/
theorem claim_C1_lexicographic_row_major {κ α : Type} [DecidableEq κ] (a0 : α)
    (parents : List κ) (var_domains : List (κ × List α)) (domains : List (List α))
    (h : parents.mapM (fun p => dictGet? var_domains p) = some domains) :
    generate_lexicographic_order parents var_domains =
      some ((List.range (domainsProd domains)).map (rowMajorAt a0 domains)) ∧
    generate_lexicographic_order ["A", "B"]
        [("A", ["a1", "a2"]), ("B", ["b1", "b2", "b3"])] =
      some [["a1", "b1"], ["a1", "b2"], ["a1", "b3"],
            ["a2", "b1"], ["a2", "b2"], ["a2", "b3"]] := by
  constructor
  · unfold generate_lexicographic_order
    rw [h]
    show some (itertools_product domains) = _
    rw [itertools_product_eq_rowMajor a0 domains]
  · decide

theorem claim_C1_witness :
    generate_lexicographic_order ["A", "B"]
        [("A", ["a1", "a2"]), ("B", ["b1", "b2", "b3"])] =
      some ((List.range (domainsProd [["a1", "a2"], ["b1", "b2", "b3"]])).map
        (rowMajorAt "" [["a1", "a2"], ["b1", "b2", "b3"]])) ∧
    generate_lexicographic_order ["A", "B"]
        [("A", ["a1", "a2"]), ("B", ["b1", "b2", "b3"])] =
      some [["a1", "b1"], ["a1", "b2"], ["a1", "b3"],
            ["a2", "b1"], ["a2", "b2"], ["a2", "b3"]] :=
  claim_C1_lexicographic_row_major "" ["A", "B"]
    [("A", ["a1", "a2"]), ("B", ["b1", "b2", "b3"])]
    [["a1", "a2"], ["b1", "b2", "b3"]] (by decide)

/-- C2: the serializer-side enumerator and the generator-side enumerator
agree on every pair of identical inputs (they are the same pure function,
translated from two textually identical Python definitions). -/
theorem claim_C2_enumerators_agree {κ α : Type} [DecidableEq κ]
    (parents : List κ) (var_domains : List (κ × List α)) :
    generate_lexicographic_order parents var_domains =
      lexicographic_assignments parents var_domains := rfl

theorem claim_C2_witness :
    generate_lexicographic_order [1] [(1, ["0", "1"])] =
      lexicographic_assignments [1] [(1, ["0", "1"])] :=
  claim_C2_enumerators_agree [1] [(1, ["0", "1"])]

/-- C10: on an empty parent list both enumerators return the one-element
list containing the empty assignment, for any domain mapping. -/
theorem claim_C10_empty_parents {κ α : Type} [DecidableEq κ]
    (var_domains : List (κ × List α)) :
    generate_lexicographic_order ([] : List κ) var_domains = some [[]] ∧
    lexicographic_assignments ([] : List κ) var_domains = some [[]] :=
  ⟨rfl, rfl⟩

theorem claim_C10_witness :
    generate_lexicographic_order ([] : List ℕ) [(1, ["0", "1"])] = some [[]] ∧
    lexicographic_assignments ([] : List ℕ) [(1, ["0", "1"])] = some [[]] :=
  claim_C10_empty_parents [(1, ["0", "1"])]

/-! ## Synthetic CPT generation (`network_generator.generate_distribution`,
`network_generator.generate_cpts`)

`random.random()` draws are modelled by a stream `ℕ → ℚ`; a call that is
the `i`-th draw of the program reads `stream i`.  `generate_distribution`
receives the offset of its first draw. -/

/-- `generate_distribution(num_outcomes)`: `num_outcomes` draws, each
divided by their sum. -/
def generate_distribution (num_outcomes : ℕ) (stream : ℕ → ℚ) (off : ℕ) : List ℚ :=
  let raw := (List.range num_outcomes).map (fun j => stream (off + j))
  raw.map (fun x => x / raw.sum)

/-- The two dynamic shapes of a CPT value in `generate_cpts`: a bare
distribution for a parentless variable, or a list of
(assignment, distribution) pairs. -/
inductive GenCpt where
  | flat (ps : List ℚ)
  | rows (es : List (List String × List ℚ))
deriving DecidableEq

/-- The per-variable loop body of `generate_cpts`, threading the CPT dict
and the number of draws consumed so far. -/
def generate_cpts_loop (var_parents : List (ℕ × List ℕ)) (arity : ℕ) (stream : ℕ → ℚ)
    (var_domains : List (ℕ × List String)) :
    List ℕ → List (ℕ × GenCpt) → ℕ → Option (List (ℕ × GenCpt) × ℕ)
  | [], cpts, ctr => some (cpts, ctr)
  | v :: rest, cpts, ctr =>
    let parents := dictGetD var_parents v []
    if parents = [] then
      generate_cpts_loop var_parents arity stream var_domains rest
        (dictSet cpts v (GenCpt.flat (generate_distribution arity stream ctr))) (ctr + arity)
    else
      match lexicographic_assignments parents var_domains with
      | none => none
      | some assignments =>
        let table := assignments.enum.map
          (fun p => (p.2, generate_distribution arity stream (ctr + arity * p.1)))
        generate_cpts_loop var_parents arity stream var_domains rest
          (dictSet cpts v (GenCpt.rows table)) (ctr + arity * assignments.length)

/-- `generate_cpts(var_names, var_parents, arity)`: every variable gets the
domain `["0", ..., str(arity-1)]`; parentless variables one synthetic row,
others one row per parent assignment in enumerator order.  `None` models
the `KeyError` raised when a parent is absent from `var_domains`. -/
def generate_cpts (var_names : List ℕ) (var_parents : List (ℕ × List ℕ)) (arity : ℕ)
    (stream : ℕ → ℚ) : Option (List (ℕ × GenCpt) × List (ℕ × List String)) :=
  let var_domains := var_names.foldl
    (fun d v => dictSet d v ((List.range arity).map (fun j => toString j))) []
  (generate_cpts_loop var_parents arity stream var_domains var_names [] 0).map
    (fun p => (p.1, var_domains))

/-- A synthetic row is well-formed when it has one entry per child-domain
value and sums to one. -/
def rowOk (arity : ℕ) (ps : List ℚ) : Prop :=
  ps.length = arity ∧ ps.sum = 1

/-- All rows of a generated CPT are well-formed. -/
def genCptOk (arity : ℕ) : GenCpt → Prop
  | .flat ps => rowOk arity ps
  | .rows es => ∀ e ∈ es, rowOk arity e.2

theorem list_sum_map_div (l : List ℚ) (s : ℚ) :
    (l.map (fun x => x / s)).sum = l.sum / s := by
  induction l with
  | nil => simp
  | cons x t ih => simp [ih, add_div]

theorem generate_distribution_rowOk (arity : ℕ) (stream : ℕ → ℚ) (off : ℕ)
    (h1 : 1 ≤ arity) (hs : ∀ i, 0 < stream i) :
    rowOk arity (generate_distribution arity stream off) := by
  unfold generate_distribution rowOk
  constructor
  · simp
  · set raw := (List.range arity).map (fun j => stream (off + j)) with hraw
    have hpos : 0 < raw.sum := by
      apply List.sum_pos
      · intro x hx
        rw [hraw, List.mem_map] at hx
        obtain ⟨j, _, hj⟩ := hx
        rw [← hj]
        exact hs _
      · rw [hraw]
        intro hcon
        have := congrArg List.length hcon
        simp at this
        omega
    rw [list_sum_map_div]
    exact div_self (ne_of_gt hpos)

theorem dictSet_forall {κ α : Type} [DecidableEq κ] (P : κ × α → Prop)
    (d : List (κ × α)) (k : κ) (v : α) (hd : ∀ x ∈ d, P x) (hv : P (k, v)) :
    ∀ x ∈ dictSet d k v, P x :=
  fun x hx => (mem_dictSet d k v x hx).elim (hd x) (fun e => e ▸ hv)

theorem generate_cpts_loop_ok (var_parents : List (ℕ × List ℕ)) (arity : ℕ)
    (stream : ℕ → ℚ) (var_domains : List (ℕ × List String))
    (h1 : 1 ≤ arity) (hs : ∀ i, 0 < stream i) :
    ∀ (names : List ℕ) (cpts : List (ℕ × GenCpt)) (ctr : ℕ),
      (∀ x ∈ cpts, genCptOk arity x.2) →
      ∀ res, generate_cpts_loop var_parents arity stream var_domains names cpts ctr = some res →
      ∀ x ∈ res.1, genCptOk arity x.2 := by
  intro names
  induction names with
  | nil =>
    intro cpts ctr hc res hres
    simp only [generate_cpts_loop, Option.some.injEq] at hres
    rw [← hres]
    exact hc
  | cons v rest ih =>
    intro cpts ctr hc res hres
    simp only [generate_cpts_loop] at hres
    by_cases hp : dictGetD var_parents v [] = []
    · rw [if_pos hp] at hres
      refine ih _ _ ?_ res hres
      refine dictSet_forall _ _ _ _ hc ?_
      exact generate_distribution_rowOk arity stream ctr h1 hs
    · rw [if_neg hp] at hres
      cases hlex : lexicographic_assignments (dictGetD var_parents v []) var_domains with
      | none => rw [hlex] at hres; exact absurd hres (by simp)
      | some assignments =>
        rw [hlex] at hres
        refine ih _ _ ?_ res hres
        refine dictSet_forall _ _ _ _ hc ?_
        show ∀ e ∈ assignments.enum.map
          (fun p => (p.2, generate_distribution arity stream (ctr + arity * p.1))), rowOk arity e.2
        intro e he
        simp only [List.mem_map] at he
        obtain ⟨p, _, hpe⟩ := he
        rw [← hpe]
        exact generate_distribution_rowOk arity stream _ h1 hs

/-- C9: with arity ≥ 1 and positive draws, every synthetic CPT row — the
single row of a parentless variable and every per-assignment row alike —
has length equal to the child's domain size and sums exactly to 1 (the
rational model realises "1 up to floating rounding" exactly: each entry is
a positive draw divided by the sum of the draws). -/
theorem claim_C9_simplex_rows (arity : ℕ) (stream : ℕ → ℚ)
    (h1 : 1 ≤ arity) (hs : ∀ i, 0 < stream i) :
    (∀ off, (generate_distribution arity stream off).length = arity ∧
      (generate_distribution arity stream off).sum = 1) ∧
    (∀ (var_names : List ℕ) (var_parents : List (ℕ × List ℕ)) cpts doms,
      generate_cpts var_names var_parents arity stream = some (cpts, doms) →
      ∀ x ∈ cpts, genCptOk arity x.2) := by
  constructor
  · intro off
    exact generate_distribution_rowOk arity stream off h1 hs
  · intro var_names var_parents cpts doms hres
    have hres2 : (generate_cpts_loop var_parents arity stream
        (var_names.foldl (fun d v => dictSet d v
          ((List.range arity).map (fun j => toString j))) []) var_names [] 0).map
        (fun p => (p.1, var_names.foldl (fun d v => dictSet d v
          ((List.range arity).map (fun j => toString j))) [])) = some (cpts, doms) := hres
    cases hloop : generate_cpts_loop var_parents arity stream
        (var_names.foldl (fun d v => dictSet d v
          ((List.range arity).map (fun j => toString j))) []) var_names [] 0 with
    | none => rw [hloop] at hres2; exact absurd hres2 (by simp)
    | some p =>
      rw [hloop, Option.map_some'] at hres2
      have hp1 : p.1 = cpts := congrArg Prod.fst (Option.some.inj hres2)
      intro x hx
      exact generate_cpts_loop_ok _ arity stream _ h1 hs var_names [] 0
        (fun y hy => absurd hy (List.not_mem_nil y)) p hloop x (hp1 ▸ hx)

theorem claim_C9_witness :
    ((∀ off, (generate_distribution 2 (fun _ => (1 : ℚ)) off).length = 2 ∧
      (generate_distribution 2 (fun _ => (1 : ℚ)) off).sum = 1) ∧
    (∀ (var_names : List ℕ) (var_parents : List (ℕ × List ℕ)) cpts doms,
      generate_cpts var_names var_parents 2 (fun _ => (1 : ℚ)) = some (cpts, doms) →
      ∀ x ∈ cpts, genCptOk 2 x.2)) :=
  claim_C9_simplex_rows 2 (fun _ => (1 : ℚ)) (by decide) (fun _ => one_pos)

/-! ## The BIF grammar parser (`bif_converter.parse_bif`)

The parser works on lines of characters (`List Char`); `String` values are
built only for the stored names and domain values.  Line-level regular
expressions from the source are modelled by direct character scans that
implement the same leftmost / lazy semantics:
* `re.match(r"variable\s+(\w+)\s*{", line)`
* `re.match(r"probability\s*\(\s*(\w+)(\s*\|\s*(.*?))?\s*\)\s*{", line)`
* `re.search(r"{\s*(.*?)\s*}", line)`
* `re.search(r"table\s+(.*?);", line)`
* `re.match(r"\(\s*(.*?)\s*\)\s+(.*?);", line)`
A lazy group `(.*?)` followed by a tail pattern matches the shortest
prefix whose remainder satisfies the tail, i.e. the scan below checks the
tail at each position from the left.  `\w` and `\s` are modelled over
their ASCII meaning. -/

def isSpaceChar (c : Char) : Bool := c.isWhitespace

def isWordChar (c : Char) : Bool := c.isAlphanum || c = '_'

/-- Python `str.strip()`. -/
def trimChars (cs : List Char) : List Char :=
  ((cs.dropWhile isSpaceChar).reverse.dropWhile isSpaceChar).reverse

/-- Python `str.split(sep)` for a one-character separator (always returns
at least one piece, `[""]` for the empty string). -/
def splitOnChar (sep : Char) : List Char → List (List Char)
  | [] => [[]]
  | c :: rest =>
    if c = sep then [] :: splitOnChar sep rest
    else
      match splitOnChar sep rest with
      | [] => [[c]]
      | h :: t => (c :: h) :: t

/-- Longest digit run at the head of the list. -/
def digitsCore : List Char → List Char × List Char
  | [] => ([], [])
  | c :: rest =>
    if c.isDigit then
      let p := digitsCore rest
      (c :: p.1, p.2)
    else ([], c :: rest)

def natOfDigits (ds : List Char) : ℕ :=
  ds.foldl (fun a c => a * 10 + (c.toNat - 48)) 0

/-- Python numeric literals allow an underscore only between two digits. -/
def underscoresOkAux : Option Char → List Char → Bool
  | _, [] => true
  | prev, c :: rest =>
    if c = '_' then
      (match prev with | some p => p.isDigit | none => false) &&
      (match rest with | d :: _ => d.isDigit | [] => false) &&
      underscoresOkAux (some c) rest
    else underscoresOkAux (some c) rest

def underscoresOk (cs : List Char) : Bool := underscoresOkAux none cs

/-- Optional exponent suffix `e[+-]?digits` returning the scale factor;
`some 1` on empty rest, `none` when the rest is not a valid suffix. -/
def parseExpPart : List Char → Option ℚ
  | [] => some 1
  | e :: r =>
    if e = 'e' ∨ e = 'E' then
      let sr : Bool × List Char := match r with
        | '+' :: r2 => (false, r2)
        | '-' :: r2 => (true, r2)
        | r2 => (false, r2)
      let p := digitsCore sr.2
      if p.1 = [] ∨ p.2 ≠ [] then none
      else if sr.1 then some (1 / (10 : ℚ) ^ natOfDigits p.1)
      else some ((10 : ℚ) ^ natOfDigits p.1)
    else none

/-- Unsigned mantissa with optional fraction and exponent
(`digits [. digits] [exp]` or `. digits [exp]`), entire input consumed. -/
def parseMantissaExp (cs : List Char) : Option ℚ :=
  let ip := digitsCore cs
  match ip.2 with
  | '.' :: r2 =>
    let fp := digitsCore r2
    if ip.1 = [] ∧ fp.1 = [] then none
    else (parseExpPart fp.2).map (fun ex =>
      ((natOfDigits ip.1 : ℚ) + (natOfDigits fp.1 : ℚ) / (10 : ℚ) ^ fp.1.length) * ex)
  | r =>
    if ip.1 = [] then none
    else (parseExpPart r).map (fun ex => (natOfDigits ip.1 : ℚ) * ex)

/-- Python `float(token)`: `none` models the `ValueError` raised on a
non-numeric token (`float()` itself strips surrounding whitespace).
`inf`/`infinity`/`nan` (any case, optional sign) are *accepted* by
`float()`; `ℚ` cannot represent them and no claim observes their numeric
value, so the model maps them to `0` while still accepting the token. -/
def pyFloat? (tok : List Char) : Option ℚ :=
  let cs := trimChars tok
  let sgn : Bool × List Char := match cs with
    | '+' :: r => (true, r)
    | '-' :: r => (false, r)
    | r => (true, r)
  let low := sgn.2.map Char.toLower
  if low = ['i', 'n', 'f'] ∨ low = ['i', 'n', 'f', 'i', 'n', 'i', 't', 'y'] ∨
      low = ['n', 'a', 'n'] then
    some 0
  else if underscoresOk sgn.2 then
    (parseMantissaExp (sgn.2.filter (fun c => c ≠ '_'))).map
      (fun q => if sgn.1 then q else -q)
  else none

/-- `re.match(r"variable\s+(\w+)\s*{", line)`: the captured name, if the
header matches. -/
def parseVariableHeader (cs : List Char) : Option String :=
  if ("variable".toList).isPrefixOf cs then
    let r1 := cs.drop 8
    match r1 with
    | c :: _ =>
      if isSpaceChar c then
        let r2 := r1.dropWhile isSpaceChar
        let w := r2.takeWhile isWordChar
        let r3 := r2.dropWhile isWordChar
        if w = [] then none
        else match r3.dropWhile isSpaceChar with
          | '\x7b' :: _ => some w.asString
          | _ => none
      else none
    | [] => none
  else none

/-- Tail test for the lazy parents group of the probability header:
`\s*\)\s*{` matches here. -/
def probTailCond (cs : List Char) : Bool :=
  match cs.dropWhile isSpaceChar with
  | ')' :: u =>
    match u.dropWhile isSpaceChar with
    | '\x7b' :: _ => true
    | _ => false
  | _ => false

/-- Shortest prefix whose remainder satisfies `probTailCond` (the lazy
`(.*?)` group of the probability header). -/
def probLazyContent : List Char → Option (List Char)
  | [] => none
  | c :: rest =>
    if probTailCond (c :: rest) then some []
    else (probLazyContent rest).map (fun a => c :: a)

/-- `re.match(r"probability\s*\(\s*(\w+)(\s*\|\s*(.*?))?\s*\)\s*{", line)`:
child name and parent list.  An empty parents capture is falsy in the
source and yields no parents; when the `|` branch cannot complete, the
optional group is dropped and the remainder must then start with `)`,
which the `|` prevents — so the whole match fails, as modelled. -/
def parseProbabilityHeader (cs : List Char) : Option (String × List String) :=
  if ("probability".toList).isPrefixOf cs then
    let r1 := (cs.drop 11).dropWhile isSpaceChar
    match r1 with
    | '(' :: r2 =>
      let r3 := r2.dropWhile isSpaceChar
      let w := r3.takeWhile isWordChar
      let r4 := (r3.dropWhile isWordChar).dropWhile isSpaceChar
      if w = [] then none
      else
        match r4 with
        | '|' :: r5 =>
          match probLazyContent (r5.dropWhile isSpaceChar) with
          | some content =>
            if content = [] then some (w.asString, [])
            else some (w.asString,
              (splitOnChar ',' content).map (fun t => (trimChars t).asString))
          | none => none
        | ')' :: r5 =>
          match r5.dropWhile isSpaceChar with
          | '\x7b' :: _ => some (w.asString, [])
          | _ => none
        | _ => none
    | _ => none
  else none

/-- `re.search(r"{\s*(.*?)\s*}", line)`: the trimmed text between the
first opening brace and the first closing brace after it (if the first
opening brace has no closing brace after it, no later one does either). -/
def braceContent? (cs : List Char) : Option (List Char) :=
  match cs.dropWhile (fun c => c ≠ '\x7b') with
  | [] => none
  | _ :: rest =>
    let content := rest.takeWhile (fun c => c ≠ '\x7d')
    if content.length = rest.length then none
    else some (trimChars content)

/-- The domain list a line contributes inside a `variable` block:
split the brace content on commas and strip each value. -/
def domainFromLine (l : List Char) : Option (List String) :=
  (braceContent? l).map (fun c =>
    (splitOnChar ',' c).map (fun v => (trimChars v).asString))

/-- Tail test for the lazy assignment group of a conditional row:
`\s*\)\s+(.*?);` matches here; returns the probability text capture
(the shortest prefix of the post-whitespace text ending before `;`). -/
def rowTailCond (cs : List Char) : Option (List Char) :=
  match cs.dropWhile isSpaceChar with
  | ')' :: u =>
    match u with
    | c :: _ =>
      if isSpaceChar c then
        let v := u.dropWhile isSpaceChar
        let c2 := v.takeWhile (fun x => x ≠ ';')
        if c2.length < v.length then some c2 else none
      else none
    | [] => none
  | _ => none

/-- Shortest assignment prefix with a matching row tail. -/
def rowLazy : List Char → Option (List Char × List Char)
  | [] => none
  | c :: rest =>
    match rowTailCond (c :: rest) with
    | some c2 => some ([], c2)
    | none => (rowLazy rest).map (fun p => (c :: p.1, p.2))

/-- `re.match(r"\(\s*(.*?)\s*\)\s+(.*?);", line)`: the stripped assignment
tokens and the raw probability-token texts of one conditional row. -/
def parseRowLine (cs : List Char) : Option (List String × List (List Char)) :=
  match cs with
  | '(' :: r1 =>
    match rowLazy (r1.dropWhile isSpaceChar) with
    | some p =>
      some ((splitOnChar ',' p.1).map (fun a => (trimChars a).asString),
            splitOnChar ',' p.2)
    | none => none
  | _ => none

/-- One position of `re.search(r"table\s+(.*?);", line)`. -/
def tableHere (cs : List Char) : Option (List Char) :=
  if ("table".toList).isPrefixOf cs then
    let r := cs.drop 5
    match r with
    | c :: _ =>
      if isSpaceChar c then
        let v := r.dropWhile isSpaceChar
        let content := v.takeWhile (fun x => x ≠ ';')
        if content.length < v.length then some content else none
      else none
    | [] => none
  else none

/-- `re.search`: try every start position from the left. -/
def tableSearch : List Char → Option (List Char)
  | [] => none
  | c :: rest =>
    match tableHere (c :: rest) with
    | some content => some content
    | none => tableSearch rest

/-- The two dynamic shapes the `table` variable takes inside a probability
block: a bare float list (from a `table ...;` line) or a list of
(assignment, floats) rows. -/
inductive CpdTable where
  | flat (ps : List ℚ)
  | rows (es : List (List String × List ℚ))
deriving DecidableEq

/-- One parsed probability block: the dictionary
`{"child": ..., "parents": ..., "table": ...}` of the source. -/
structure BifCpd where
  child : String
  parents : List String
  table : CpdTable
deriving DecidableEq

/-- Appending a conditional row.  When a previous `table ...;` line already
replaced the accumulator by a float list, CPython would append the pair
into that float list, producing a mixed-typed list; the typed model keeps
the float list unchanged instead (the claims' properties keep blocks
well-shaped, so this corner is never observed). -/
def addRow (t : CpdTable) (a : List String) (ps : List ℚ) : CpdTable :=
  match t with
  | .rows es => .rows (es ++ [(a, ps)])
  | .flat f => .flat f

/-- The domain accumulated over a `variable` block body: each line with a
brace list *reassigns* `domain`, so the last such line wins. -/
def variableBlockDomain (block : List (List Char)) : List String :=
  block.foldl (fun d l => match domainFromLine l with
    | some dom => dom
    | none => d) []

/-- One line of a `probability` block body acting on the accumulated
table; `none` models the `ValueError` from `float()` on a non-numeric
token of a recognized `table`/row line. -/
def probBlockStep (t : CpdTable) (l : List Char) : Option CpdTable :=
  if ("table".toList).isPrefixOf l then
    match tableSearch l with
    | some content =>
      ((splitOnChar ',' content).mapM pyFloat?).map (fun ps => CpdTable.flat ps)
    | none => pure t
  else
    match parseRowLine l with
    | some ac =>
      (ac.2.mapM pyFloat?).map (fun ps => addRow t ac.1 ps)
    | none => pure t

/-- The table accumulated over a `probability` block body. -/
def probBlockTable (block : List (List Char)) : Option CpdTable :=
  block.foldlM probBlockStep (CpdTable.rows [])

/-- Comment stripping and blank-line removal applied before the scan:
`line.split('#')[0].strip()`, keeping non-empty results.  (Python
`splitlines` also splits on `\r`; a `\r\n` input cleans identically, and
other separators are outside the model.) -/
def cleanedLines (text : String) : List (List Char) :=
  ((splitOnChar '\n' text.toList).map
    (fun l => trimChars (l.takeWhile (fun c => c ≠ '#')))).filter (fun l => l ≠ [])

/-- The main scan loop of `parse_bif` over the cleaned lines.  The fuel is
the number of remaining lines: every iteration consumes at least one line,
so the fuel-exhaustion branch (which requires a non-empty list) is
unreachable from `parse_bif` (see `parse_lines_fuel_irrelevant`). -/
def parse_lines : ℕ → List (List Char) → Option (List (String × List String) × List BifCpd)
  | _, [] => some ([], [])
  | 0, _ :: _ => some ([], [])
  | fuel + 1, line :: rest =>
    if ("network".toList).isPrefixOf line then parse_lines fuel rest
    else if ("variable".toList).isPrefixOf line then
      match parseVariableHeader line with
      | some name =>
        let k := rest.findIdx (fun l => l = ['\x7d'])
        let block := rest.take k
        let rem := rest.drop (k + 1)
        (parse_lines fuel rem).map (fun p => ((name, variableBlockDomain block) :: p.1, p.2))
      | none => parse_lines fuel rest
    else if ("probability".toList).isPrefixOf line then
      match parseProbabilityHeader line with
      | some hd =>
        let k := rest.findIdx (fun l => l = ['\x7d'])
        let block := rest.take k
        let rem := rest.drop (k + 1)
        match probBlockTable block with
        | some table =>
          (parse_lines fuel rem).map (fun p => (p.1, ⟨hd.1, hd.2, table⟩ :: p.2))
        | none => none
      | none => parse_lines fuel rest
    else parse_lines fuel rest

/-- `bif_converter.parse_bif(file_contents)`: `none` models the
`ValueError` raised by `float()` on a malformed probability value. -/
def parse_bif (text : String) :
    Option (List (String × List String) × List BifCpd) :=
  parse_lines (cleanedLines text).length (cleanedLines text)

/-! ## The tabular serializer (`bif_converter.convert_to_target_format`) -/

/-- One probability value rendered as decimal text (`f"{p}"`).  The exact
digits of CPython float repr are not modelled — no claim observes the
rendered digits, only whether a row line is empty. -/
def probText (p : ℚ) : String := toString p

/-- One row of probabilities: `" ".join(f"{p}" for p in probs)`; the empty
row renders as an empty line. -/
def probsLine (ps : List ℚ) : String :=
  String.intercalate " " (ps.map probText)

/-- The header line of one CPT block:
`child if not parents else child + " " + " ".join(parents)`. -/
def cpdHeaderLine (cpd : BifCpd) : String :=
  if cpd.parents = [] then cpd.child
  else cpd.child ++ " " ++ String.intercalate " " cpd.parents

/-- The row-lookup dict built from a conditional table:
`table_map[tuple(assignment)] = probs`. -/
def tableMapOf (es : List (List String × List ℚ)) : List (List String × List ℚ) :=
  es.foldl (fun m e => dictSet m e.1 e.2) []

/-- The lines the serializer emits for one CPT: the blank separator, the
header, then the row lines.  For a parentless CPT exactly one row line is
emitted (when the table degenerately holds (assignment, row) pairs, CPython
would render each pair's repr on that same single line; the model joins the
pairs' rows instead, keeping the observable single-line shape).  For a
conditional CPT, `none` models the `TypeError` from unpacking a bare float
list, and a `KeyError` from an undeclared parent domain propagates from the
enumerator. -/
def cpdBlockLines (var_domains : List (String × List String)) (cpd : BifCpd) :
    Option (List String) :=
  if cpd.parents = [] then
    match cpd.table with
    | .flat ps => some ["", cpdHeaderLine cpd, probsLine ps]
    | .rows es => some ["", cpdHeaderLine cpd,
        String.intercalate " " (es.map (fun e => probsLine e.2))]
  else
    match cpd.table with
    | .flat _ => none
    | .rows es =>
      match generate_lexicographic_order cpd.parents var_domains with
      | some lex => some ("" :: cpdHeaderLine cpd ::
          lex.map (fun a => probsLine (dictGetD (tableMapOf es) a [])))
      | none => none

/-- `convert_to_target_format(vars, cpds)` as its list of output
lines: the variable count, one `name dom...` line per variable, the CPT
count, then each CPT block preceded by a blank line. -/
def convert_lines (vars : List (String × List String)) (cpds : List BifCpd) :
    Option (List String) :=
  match cpds.mapM (cpdBlockLines (vars.foldl (fun d nv => dictSet d nv.1 nv.2) [])) with
  | some blocks =>
    some (toString vars.length ::
      (vars.map (fun nv => nv.1 ++ " " ++ String.intercalate " " nv.2) ++
        toString cpds.length :: blocks.flatten))
  | none => none

/-- `bif_converter.convert_to_target_format`: the joined output text. -/
def convert_to_target_format (vars : List (String × List String))
    (cpds : List BifCpd) : Option String :=
  (convert_lines vars cpds).map (fun ls => String.intercalate "\n" ls)

theorem list_sum_map_const {α : Type} (l : List α) (c : ℕ) :
    (l.map (fun _ => c)).sum = l.length * c := by
  induction l with
  | nil => simp
  | cons x t ih => simp [ih, Nat.succ_mul, Nat.add_comm]

theorem itertools_product_length {α : Type} (ds : List (List α)) :
    (itertools_product ds).length = domainsProd ds := by
  induction ds with
  | nil => rfl
  | cons d rest ih =>
    show (d.flatMap (fun x => (itertools_product rest).map (fun t => x :: t))).length = _
    rw [List.length_flatMap]
    have h2 : (List.map (List.length ∘ fun x =>
        List.map (fun t => x :: t) (itertools_product rest)) d) =
        d.map (fun _ => (itertools_product rest).length) := by
      apply List.map_congr_left
      intro x _
      simp
    rw [h2, list_sum_map_const, ih]
    simp [domainsProd]

theorem dictGetD_of_get? {κ α : Type} [DecidableEq κ] {d : List (κ × α)} {k : κ} {x : α}
    (v0 : α) (h : dictGet? d k = some x) : dictGetD d k v0 = x := by
  simp [dictGetD, h]

theorem mapM_dictGet?_eq_some {κ α : Type} [DecidableEq κ] (d : List (κ × α)) (v0 : α) :
    ∀ ps : List κ, (∀ p ∈ ps, p ∈ dictKeys d) →
    ps.mapM (fun p => dictGet? d p) = some (ps.map (fun p => dictGetD d p v0)) := by
  intro ps
  induction ps with
  | nil => intro _; rfl
  | cons p rest ih =>
    intro h
    have hp : p ∈ dictKeys d := h p (List.mem_cons_self _ _)
    rw [← dictGet?_isSome] at hp
    obtain ⟨x, hx⟩ := Option.isSome_iff_exists.mp hp
    rw [List.mapM_cons, hx, ih (fun q hq => h q (List.mem_cons_of_mem _ hq))]
    simp [dictGetD_of_get? v0 hx]

/-- The property C6 asserts of the rows of one serialized CPT block. -/
def cpdRowsOk (var_domains : List (String × List String)) (cpd : BifCpd)
    (rows : List String) : Prop :=
  rows.length = (if cpd.parents = [] then 1
    else (cpd.parents.map (fun p => (dictGetD var_domains p []).length)).prod) ∧
  (∀ es, cpd.table = CpdTable.rows es → cpd.parents ≠ [] →
    ∃ lex, generate_lexicographic_order cpd.parents var_domains = some lex ∧
      rows = lex.map (fun a => probsLine (dictGetD (tableMapOf es) a [])) ∧
      ∀ a ∈ lex, dictGet? (tableMapOf es) a = none →
        probsLine (dictGetD (tableMapOf es) a []) = "")

theorem cpdBlockLines_ok (var_domains : List (String × List String)) (cpd : BifCpd)
    (hdecl : ∀ p ∈ cpd.parents, p ∈ dictKeys var_domains)
    (hshape : cpd.parents ≠ [] → ∃ es, cpd.table = CpdTable.rows es) :
    ∃ rows, cpdBlockLines var_domains cpd = some ("" :: cpdHeaderLine cpd :: rows) ∧
      cpdRowsOk var_domains cpd rows := by
  by_cases hp : cpd.parents = []
  · cases ht : cpd.table with
    | flat ps =>
      refine ⟨[probsLine ps], ?_, ?_, ?_⟩
      · simp [cpdBlockLines, hp, ht]
      · simp [hp]
      · intro es hes
        rw [ht] at hes
        cases hes
    | rows es =>
      refine ⟨[String.intercalate " " (es.map (fun e => probsLine e.2))], ?_, ?_, ?_⟩
      · simp [cpdBlockLines, hp, ht]
      · simp [hp]
      · intro es2 _ hne
        exact absurd hp hne
  · obtain ⟨es, hes⟩ := hshape hp
    have hmap := mapM_dictGet?_eq_some var_domains [] cpd.parents hdecl
    have hlex : generate_lexicographic_order cpd.parents var_domains =
        some (itertools_product (cpd.parents.map (fun p => dictGetD var_domains p []))) := by
      unfold generate_lexicographic_order
      rw [hmap]
      rfl
    refine ⟨(itertools_product (cpd.parents.map (fun p => dictGetD var_domains p []))).map
      (fun a => probsLine (dictGetD (tableMapOf es) a [])), ?_, ?_, ?_⟩
    · simp only [cpdBlockLines, hp, if_false, hes]
      rw [hlex]
    · rw [List.length_map, itertools_product_length]
      rw [if_neg hp]
      unfold domainsProd
      rw [List.map_map]
      rfl
    · intro es2 hes2 _
      rw [hes] at hes2
      cases hes2
      refine ⟨_, hlex, rfl, ?_⟩
      intro a _ hnone
      have : dictGetD (tableMapOf es) a ([] : List ℚ) = [] := by
        simp [dictGetD, hnone]
      rw [this]
      rfl

theorem mapM_cpdBlockLines (var_domains : List (String × List String)) :
    ∀ cpds : List BifCpd,
    (∀ cpd ∈ cpds, ∀ p ∈ cpd.parents, p ∈ dictKeys var_domains) →
    (∀ cpd ∈ cpds, cpd.parents ≠ [] → ∃ es, cpd.table = CpdTable.rows es) →
    ∃ blocks, cpds.mapM (cpdBlockLines var_domains) = some blocks ∧
      List.Forall₂ (fun (cpd : BifCpd) (block : List String) => ∃ rows,
        block = "" :: cpdHeaderLine cpd :: rows ∧ cpdRowsOk var_domains cpd rows)
        cpds blocks := by
  intro cpds
  induction cpds with
  | nil =>
    intro _ _
    exact ⟨[], rfl, List.Forall₂.nil⟩
  | cons cpd rest ih =>
    intro hdecl hshape
    obtain ⟨rows, hblock, hok⟩ := cpdBlockLines_ok var_domains cpd
      (hdecl cpd (List.mem_cons_self _ _)) (hshape cpd (List.mem_cons_self _ _))
    obtain ⟨blocks, hblocks, hforall⟩ := ih
      (fun c hc => hdecl c (List.mem_cons_of_mem _ hc))
      (fun c hc => hshape c (List.mem_cons_of_mem _ hc))
    refine ⟨("" :: cpdHeaderLine cpd :: rows) :: blocks, ?_, ?_⟩
    · rw [List.mapM_cons, hblock, hblocks]
      rfl
    · exact List.Forall₂.cons ⟨rows, rfl, hok⟩ hforall

/-- C6: when every parent of every CPT is a declared variable (the spec's
data-model invariant for a parsed network) and conditional tables hold
rows, the serializer succeeds; per block it emits a blank line, the header,
then exactly `prod(len(domain(p)) for p in parents)` row lines in
enumerator order (exactly one row line when there are no parents); and a
parent assignment absent from the table mapping yields an empty line
rather than a failure. -/
theorem claim_C6_serializer_row_counts (vars : List (String × List String))
    (cpds : List BifCpd)
    (hdecl : ∀ cpd ∈ cpds, ∀ p ∈ cpd.parents,
      p ∈ dictKeys (vars.foldl (fun d nv => dictSet d nv.1 nv.2) []))
    (hshape : ∀ cpd ∈ cpds, cpd.parents ≠ [] → ∃ es, cpd.table = CpdTable.rows es) :
    ∃ blocks,
      convert_lines vars cpds = some (toString vars.length ::
        (vars.map (fun nv => nv.1 ++ " " ++ String.intercalate " " nv.2) ++
          toString cpds.length :: blocks.flatten)) ∧
      List.Forall₂ (fun (cpd : BifCpd) (block : List String) => ∃ rows,
        block = "" :: cpdHeaderLine cpd :: rows ∧
        cpdRowsOk (vars.foldl (fun d nv => dictSet d nv.1 nv.2) []) cpd rows)
        cpds blocks := by
  obtain ⟨blocks, hblocks, hforall⟩ :=
    mapM_cpdBlockLines (vars.foldl (fun d nv => dictSet d nv.1 nv.2) []) cpds hdecl hshape
  refine ⟨blocks, ?_, hforall⟩
  unfold convert_lines
  simp only [hblocks]

theorem claim_C6_witness :
    ∃ blocks,
      convert_lines [("A", ["0", "1"]), ("B", ["0", "1"])]
          [⟨"B", ["A"], CpdTable.rows []⟩] =
        some (toString ([("A", ["0", "1"]), ("B", ["0", "1"])] :
            List (String × List String)).length ::
          (([("A", ["0", "1"]), ("B", ["0", "1"])] :
              List (String × List String)).map
            (fun nv => nv.1 ++ " " ++ String.intercalate " " nv.2) ++
            toString ([⟨"B", ["A"], CpdTable.rows []⟩] : List BifCpd).length ::
              blocks.flatten)) ∧
      List.Forall₂ (fun (cpd : BifCpd) (block : List String) => ∃ rows,
        block = "" :: cpdHeaderLine cpd :: rows ∧
        cpdRowsOk (([("A", ["0", "1"]), ("B", ["0", "1"])] :
            List (String × List String)).foldl (fun d nv => dictSet d nv.1 nv.2) [])
          cpd rows)
        [⟨"B", ["A"], CpdTable.rows []⟩] blocks :=
  claim_C6_serializer_row_counts [("A", ["0", "1"]), ("B", ["0", "1"])]
    [⟨"B", ["A"], CpdTable.rows []⟩]
    (by decide)
    (fun cpd hc _ => ⟨[], by
      have : cpd = ⟨"B", ["A"], CpdTable.rows []⟩ := List.mem_singleton.mp hc
      rw [this]⟩)

/-! ## Parser error behavior (C7) and variable-domain extraction (C8) -/

/-- All probability tokens of the `table`/row shape this line exposes (if
any) parse as floats — the condition under which the scan cannot raise. -/
def lineProbTokensOk (l : List Char) : Bool :=
  (match tableSearch l with
   | some content => (splitOnChar ',' content).all (fun t => (pyFloat? t).isSome)
   | none => true) &&
  (match parseRowLine l with
   | some ac => ac.2.all (fun t => (pyFloat? t).isSome)
   | none => true)

theorem mapM_isSome_of_all {α β : Type} (f : α → Option β) :
    ∀ xs : List α, (∀ x ∈ xs, (f x).isSome = true) → ∃ ys, xs.mapM f = some ys := by
  intro xs
  induction xs with
  | nil => intro _; exact ⟨[], rfl⟩
  | cons x rest ih =>
    intro h
    obtain ⟨y, hy⟩ := Option.isSome_iff_exists.mp (h x (List.mem_cons_self _ _))
    obtain ⟨ys, hys⟩ := ih (fun a ha => h a (List.mem_cons_of_mem _ ha))
    refine ⟨y :: ys, ?_⟩
    rw [List.mapM_cons, hy, hys]
    rfl

theorem probBlockStep_total (t0 : CpdTable) (l : List Char)
    (hok : lineProbTokensOk l = true) : ∃ t1, probBlockStep t0 l = some t1 := by
  unfold lineProbTokensOk at hok
  rw [Bool.and_eq_true] at hok
  unfold probBlockStep
  by_cases htab : ("table".toList).isPrefixOf l
  · rw [if_pos htab]
    cases hts : tableSearch l with
    | some content =>
      rw [hts] at hok
      have hall : ∀ t ∈ splitOnChar ',' content, (pyFloat? t).isSome = true :=
        List.all_eq_true.mp hok.1
      obtain ⟨ps, hps⟩ := mapM_isSome_of_all pyFloat? _ hall
      refine ⟨CpdTable.flat ps, ?_⟩
      show Option.map (fun ps => CpdTable.flat ps)
        ((splitOnChar ',' content).mapM pyFloat?) = _
      rw [hps]
      rfl
    | none => exact ⟨t0, rfl⟩
  · rw [if_neg htab]
    cases hrow : parseRowLine l with
    | some ac =>
      rw [hrow] at hok
      have hall : ∀ t ∈ ac.2, (pyFloat? t).isSome = true :=
        List.all_eq_true.mp hok.2
      obtain ⟨ps, hps⟩ := mapM_isSome_of_all pyFloat? _ hall
      refine ⟨addRow t0 ac.1 ps, ?_⟩
      show Option.map (fun ps => addRow t0 ac.1 ps) (ac.2.mapM pyFloat?) = _
      rw [hps]
      rfl
    | none => exact ⟨t0, rfl⟩

theorem foldlM_probBlockStep_total :
    ∀ (block : List (List Char)) (t0 : CpdTable),
    (∀ l ∈ block, lineProbTokensOk l = true) →
    ∃ t, block.foldlM probBlockStep t0 = some t := by
  intro block
  induction block with
  | nil => intro t0 _; exact ⟨t0, rfl⟩
  | cons l rest ih =>
    intro t0 h
    obtain ⟨t1, ht1⟩ := probBlockStep_total t0 l (h l (List.mem_cons_self _ _))
    obtain ⟨t2, ht2⟩ := ih t1 (fun x hx => h x (List.mem_cons_of_mem _ hx))
    refine ⟨t2, ?_⟩
    rw [List.foldlM_cons, ht1]
    exact ht2

theorem parseVariableHeader_isPrefix {line : List Char} {name : String}
    (h : parseVariableHeader line = some name) :
    ("variable".toList).isPrefixOf line = true := by
  cases hb : ("variable".toList).isPrefixOf line with
  | true => rfl
  | false =>
    unfold parseVariableHeader at h
    rw [hb] at h
    simp at h

theorem parseProbabilityHeader_isPrefix {line : List Char} {hd : String × List String}
    (h : parseProbabilityHeader line = some hd) :
    ("probability".toList).isPrefixOf line = true := by
  cases hb : ("probability".toList).isPrefixOf line with
  | true => rfl
  | false =>
    unfold parseProbabilityHeader at h
    rw [hb] at h
    simp at h

theorem variable_not_network {line : List Char}
    (h : ("variable".toList).isPrefixOf line = true) :
    ("network".toList).isPrefixOf line = false := by
  obtain ⟨t, ht⟩ := List.isPrefixOf_iff_prefix.mp h
  rw [← ht]
  rfl

theorem probability_not_network {line : List Char}
    (h : ("probability".toList).isPrefixOf line = true) :
    ("network".toList).isPrefixOf line = false := by
  obtain ⟨t, ht⟩ := List.isPrefixOf_iff_prefix.mp h
  rw [← ht]
  rfl

theorem probability_not_variable {line : List Char}
    (h : ("probability".toList).isPrefixOf line = true) :
    ("variable".toList).isPrefixOf line = false := by
  obtain ⟨t, ht⟩ := List.isPrefixOf_iff_prefix.mp h
  rw [← ht]
  rfl

theorem parse_lines_total : ∀ (fuel : ℕ) (lines : List (List Char)),
    (∀ l ∈ lines, lineProbTokensOk l = true) →
    ∃ r, parse_lines fuel lines = some r := by
  intro fuel
  induction fuel with
  | zero =>
    intro lines _
    cases lines with
    | nil => exact ⟨([], []), rfl⟩
    | cons a b => exact ⟨([], []), rfl⟩
  | succ fuel ih =>
    intro lines h
    cases lines with
    | nil => exact ⟨([], []), rfl⟩
    | cons line rest =>
      have hrest : ∀ l ∈ rest, lineProbTokensOk l = true :=
        fun l hl => h l (List.mem_cons_of_mem _ hl)
      have hrem : ∀ l ∈ rest.drop (rest.findIdx (fun l => l = ['\x7d']) + 1),
          lineProbTokensOk l = true :=
        fun l hl => hrest l (List.mem_of_mem_drop hl)
      have hblock : ∀ l ∈ rest.take (rest.findIdx (fun l => l = ['\x7d'])),
          lineProbTokensOk l = true :=
        fun l hl => hrest l (List.mem_of_mem_take hl)
      simp only [parse_lines]
      by_cases h1 : ("network".toList).isPrefixOf line
      · simp only [h1, if_true]
        exact ih rest hrest
      · simp only [h1, Bool.false_eq_true, if_false]
        by_cases h2 : ("variable".toList).isPrefixOf line
        · simp only [h2, if_true]
          cases hvh : parseVariableHeader line with
          | some name =>
            obtain ⟨r, hr⟩ := ih _ hrem
            refine ⟨((name, variableBlockDomain (rest.take
              (rest.findIdx (fun l => l = ['\x7d'])))) :: r.1, r.2), ?_⟩
            simp only [hr]
            rfl
          | none => exact ih rest hrest
        · simp only [h2, Bool.false_eq_true, if_false]
          by_cases h3 : ("probability".toList).isPrefixOf line
          · simp only [h3, if_true]
            cases hph : parseProbabilityHeader line with
            | some hd =>
              obtain ⟨t, htab⟩ := foldlM_probBlockStep_total _ (CpdTable.rows []) hblock
              have htab2 : probBlockTable (rest.take
                  (rest.findIdx (fun l => l = ['\x7d']))) = some t := htab
              obtain ⟨r, hr⟩ := ih _ hrem
              refine ⟨(r.1, ⟨hd.1, hd.2, t⟩ :: r.2), ?_⟩
              simp only [htab2, hr]
              rfl
            | none => exact ih rest hrest
          · simp only [h3, Bool.false_eq_true, if_false]
            exact ih rest hrest

/-- C7 counterexample: the parser *can* raise.  On this input the
`probability` block's `table x;` line matches the table pattern and
`float("x")` raises `ValueError` (modelled by `none`), refuting "for every
input text, the grammar parser never raises an error". -/
theorem claim_C7_counterexample :
    parse_bif "probability ( A ) \x7b\ntable x;\n\x7d" = none := by decide

/-- C7 amended: a `variable` or `probability` header line whose structure
does not match the expected pattern is skipped, and so is any other
unrecognized line; parsing completes with a (possibly partial) network for
every input whose recognized `table`/row lines carry only tokens accepted
by `float()` — but a recognized `table`/row line with a non-float token
raises `ValueError` (see the counterexample). -/
theorem claim_C7_parser_skip_and_completion :
    (∀ (fuel : ℕ) (line : List Char) (rest : List (List Char)),
      parseVariableHeader line = none → parseProbabilityHeader line = none →
      parse_lines (fuel + 1) (line :: rest) = parse_lines fuel rest) ∧
    (∀ text : String, (∀ l ∈ cleanedLines text, lineProbTokensOk l = true) →
      ∃ r, parse_bif text = some r) := by
  constructor
  · intro fuel line rest hv hp
    simp only [parse_lines]
    by_cases h1 : ("network".toList).isPrefixOf line
    · simp only [h1, if_true]
    · simp only [h1, Bool.false_eq_true, if_false]
      by_cases h2 : ("variable".toList).isPrefixOf line
      · simp only [h2, if_true, hv]
      · simp only [h2, Bool.false_eq_true, if_false]
        by_cases h3 : ("probability".toList).isPrefixOf line
        · simp only [h3, if_true, hp]
        · simp only [h3, Bool.false_eq_true, if_false]
  · intro text h
    exact parse_lines_total (cleanedLines text).length (cleanedLines text) h

theorem claim_C7_witness :
    (parse_lines (0 + 1) ([['x']] : List (List Char)) = parse_lines 0 []) ∧
    (∃ r, parse_bif "variable A \x7b\n\x7b 0, 1 \x7d\n\x7d" = some r) :=
  ⟨claim_C7_parser_skip_and_completion.1 0 ['x'] [] (by decide) (by decide),
   claim_C7_parser_skip_and_completion.2 "variable A \x7b\n\x7b 0, 1 \x7d\n\x7d"
     (by decide)⟩

/-- C8 counterexample: in a `variable` block with two brace-list lines the
parser stores the domain of the *last* one, not the first: the block body
`{ a, b }` then `{ c }` yields domain `["c"]`, refuting "takes the
variable's domain from the first such line". -/
theorem claim_C8_counterexample :
    parse_bif "variable A \x7b\n\x7b a, b \x7d\n\x7b c \x7d\n\x7d" =
      some ([("A", ["c"])], []) ∧ (["c"] : List String) ≠ ["a", "b"] := by
  constructor
  · decide
  · decide

theorem variableBlockDomain_foldl :
    ∀ (block : List (List Char)) (d0 : List String),
    block.foldl (fun d l => match domainFromLine l with
      | some dom => dom
      | none => d) d0 =
    (match (block.filter (fun l => (domainFromLine l).isSome)).getLast? with
     | some l => (domainFromLine l).getD []
     | none => d0) := by
  intro block
  induction block with
  | nil => intro d0; rfl
  | cons l rest ih =>
    intro d0
    rw [List.foldl_cons]
    cases hdl : domainFromLine l with
    | some dom =>
      show List.foldl (fun d l => match domainFromLine l with
        | some dom => dom
        | none => d) dom rest = _
      rw [ih dom]
      have hfil : (l :: rest).filter (fun x => (domainFromLine x).isSome) =
          l :: rest.filter (fun x => (domainFromLine x).isSome) := by
        apply List.filter_cons_of_pos
        rw [hdl]
        rfl
      rw [hfil]
      cases hfr : rest.filter (fun x => (domainFromLine x).isSome) with
      | nil =>
        simp [hdl]
      | cons y ys =>
        rw [List.getLast?_cons_cons]
        cases hgl : (y :: ys).getLast? with
        | none => exact absurd hgl (by simp)
        | some z => rfl
    | none =>
      show List.foldl (fun d l => match domainFromLine l with
        | some dom => dom
        | none => d) d0 rest = _
      rw [ih d0]
      have hfil : (l :: rest).filter (fun x => (domainFromLine x).isSome) =
          rest.filter (fun x => (domainFromLine x).isSome) := by
        apply List.filter_cons_of_neg
        rw [hdl]
        simp
      rw [hfil]

theorem findIdx_append_block {α : Type} (p : α → Bool) :
    ∀ (l1 : List α) (l2 : List α) (x : α),
    (∀ a ∈ l1, p a = false) → p x = true →
    (l1 ++ x :: l2).findIdx p = l1.length := by
  intro l1
  induction l1 with
  | nil =>
    intro l2 x _ hx
    simp [List.findIdx_cons, hx]
  | cons a t ih =>
    intro l2 x h hx
    rw [List.cons_append, List.findIdx_cons, h a (List.mem_cons_self _ _)]
    simp only [cond_false, List.length_cons]
    rw [ih l2 x (fun b hb => h b (List.mem_cons_of_mem _ hb)) hx]

/-- C8 amended: inside a well-formed `variable <name> { ... }` block whose
body contains one or more brace-delimited comma-separated lists, the
parser takes the domain from the *last* such line (each matching line
reassigns the domain), with each value trimmed of surrounding whitespace
and in the order listed; the parsed variable carries exactly that domain. -/
theorem claim_C8_domain_from_last_brace_line :
    (∀ block : List (List Char), variableBlockDomain block =
      (match (block.filter (fun l => (domainFromLine l).isSome)).getLast? with
       | some l => (domainFromLine l).getD []
       | none => [])) ∧
    (∀ (fuel : ℕ) (name : String) (hdr : List Char) (body rest : List (List Char)),
      parseVariableHeader hdr = some name →
      (∀ l ∈ body, l ≠ ['\x7d']) →
      parse_lines (fuel + 1) (hdr :: (body ++ ['\x7d'] :: rest)) =
        (parse_lines fuel rest).map
          (fun p => ((name, variableBlockDomain body) :: p.1, p.2))) := by
  constructor
  · intro block
    exact variableBlockDomain_foldl block []
  · intro fuel name hdr body rest hname hbody
    have hpref := parseVariableHeader_isPrefix hname
    have hnet := variable_not_network hpref
    have hk : (body ++ ['\x7d'] :: rest).findIdx (fun l => l = ['\x7d']) = body.length := by
      apply findIdx_append_block
      · intro a ha
        simp [hbody a ha]
      · simp
    have hdrop : (body ++ ['\x7d'] :: rest).drop (body.length + 1) = rest := by
      have h1 : body ++ ['\x7d'] :: rest = (body ++ [['\x7d']]) ++ rest := by simp
      have h2 : body.length + 1 = (body ++ [['\x7d']]).length := by simp
      rw [h1, h2, List.drop_left]
    have htake : (body ++ ['\x7d'] :: rest).take body.length = body := by
      have h1 : body ++ ['\x7d'] :: rest = body ++ (['\x7d'] :: rest) := rfl
      rw [h1, List.take_left]
    simp only [parse_lines, hnet, Bool.false_eq_true, if_false, hpref, if_true,
      hname, hk, hdrop, htake]

theorem claim_C8_witness :
    (variableBlockDomain ["\x7b a, b \x7d".toList, "\x7b c \x7d".toList] =
      (match (["\x7b a, b \x7d".toList, "\x7b c \x7d".toList].filter
          (fun l => (domainFromLine l).isSome)).getLast? with
       | some l => (domainFromLine l).getD []
       | none => [])) ∧
    (parse_lines (0 + 1) ("variable A \x7b".toList ::
        (["\x7b a, b \x7d".toList, "\x7b c \x7d".toList] ++ ['\x7d'] :: [])) =
      (parse_lines 0 []).map
        (fun p => (("A", variableBlockDomain
          ["\x7b a, b \x7d".toList, "\x7b c \x7d".toList]) :: p.1, p.2))) :=
  ⟨claim_C8_domain_from_last_brace_line.1
      ["\x7b a, b \x7d".toList, "\x7b c \x7d".toList],
   claim_C8_domain_from_last_brace_line.2 0 "A" "variable A \x7b".toList
      ["\x7b a, b \x7d".toList, "\x7b c \x7d".toList] [] (by decide) (by decide)⟩

/-! ## Topology generation (`network_generator.generate_chain`,
`generate_tree`, `generate_inverse_tree`, `generate_random_dag`)

Placeholder name `X<i>` is represented by `i : ℕ` (1-based); the sort key
`int(x[1:])` of the source is then the name itself, and Python's stable
ascending sort on the duplicate-free parent lists below is the unique
sorted permutation, computed with `List.insertionSort` for kernel
computability. -/

/-- Python 3 `round()` on a float-valued expression: round half to even. -/
def pyRound (q : ℚ) : ℤ :=
  if q - ⌊q⌋ = 1 / 2 then (if 2 ∣ ⌊q⌋ then ⌊q⌋ else ⌊q⌋ + 1) else round q

/-- `generate_chain(num_vars)`: `X1` has no parents, `Xi` has parent
`X(i-1)`. -/
def generate_chain (num_vars : ℕ) : List (ℕ × List ℕ) :=
  (List.range' 1 num_vars).foldl
    (fun d i => dictSet d i (if i = 1 then [] else [i - 1])) []

/-- The mutable state of the breadth-first loop in `generate_tree`:
the parents dict, the queue of (node, level) pairs, the index of the next
unassigned variable (0-based into `var_names`, so the next child is
`nextIndex + 1`), and the last node that received children. -/
structure TreeSt where
  parents : List (ℕ × List ℕ)
  queue : List (ℕ × ℤ)
  nextIndex : ℕ
  lastAssigned : Option ℕ
deriving DecidableEq

/-- The inner `for _ in range(n_children)` loop of `generate_tree`: attach
children at successive indices, breaking once `next_index` reaches
`num_vars`. -/
def assignChildren (num_vars : ℕ) (current : ℕ) (level : ℤ) : ℕ → TreeSt → TreeSt
  | 0, st => st
  | c + 1, st =>
    let child := st.nextIndex + 1
    let st2 : TreeSt :=
      { parents := dictSet st.parents child [current],
        queue := st.queue ++ [(child, level + 1)],
        nextIndex := st.nextIndex + 1,
        lastAssigned := st.lastAssigned }
    if num_vars ≤ st2.nextIndex then st2
    else assignChildren num_vars current level c st2

/-- The `while queue and next_index < num_vars` loop of `generate_tree`.
The fuel strictly exceeds the measure `queue.length + 2*(num_vars -
next_index)`, which each iteration decreases, so the fuel never runs out
at the call site in `generate_tree`. -/
def treeLoopF (num_vars : ℕ) (levels branching : ℤ) (fullness : ℚ) :
    ℕ → TreeSt → TreeSt
  | 0, st => st
  | fuel + 1, st =>
    match st.queue with
    | [] => st
    | (current, level) :: qrest =>
      if num_vars ≤ st.nextIndex then st
      else
        let st1 : TreeSt := { st with queue := qrest }
        if levels ≤ level then treeLoopF num_vars levels branching fullness fuel st1
        else
          let nch : ℤ := min (pyRound (1 + fullness * ((branching : ℚ) - 1)))
            ((num_vars : ℤ) - (st1.nextIndex : ℤ))
          let st2 : TreeSt :=
            if 0 < nch then { st1 with lastAssigned := some current } else st1
          let st3 := assignChildren num_vars current level nch.toNat st2
          treeLoopF num_vars levels branching fullness fuel st3

/-- `generate_tree(num_vars, levels, branching, fullness)`: the BFS loop,
then leftover nodes attached to the last node that received children (or
the root), never to themselves.  (For `num_vars = 0` CPython raises
`IndexError` on `var_names[0]`; the model returns the empty dict, and the
claims require `num_vars ≥ 1`.) -/
def generate_tree (num_vars : ℕ) (levels branching : ℤ) (fullness : ℚ) :
    List (ℕ × List ℕ) :=
  let parents0 := (List.range' 1 num_vars).foldl
    (fun d i => dictSet d i ([] : List ℕ)) []
  let st0 : TreeSt :=
    { parents := parents0, queue := [(1, 1)], nextIndex := 1, lastAssigned := none }
  let st := treeLoopF num_vars levels branching fullness (2 * num_vars + 2) st0
  if st.nextIndex < num_vars then
    ((List.range' st.nextIndex (num_vars - st.nextIndex)).foldl
      (fun (p : List (ℕ × List ℕ) × ℕ) i =>
        let child := i + 1
        let attach2 := if child = p.2 then 1 else p.2
        (dictSet p.1 child [attach2], attach2))
      (st.parents, st.lastAssigned.getD 1)).1
  else st.parents

/-- `generate_inverse_tree(num_vars, levels, branching, fullness)`: build
a tree, reverse every arc, sort each parent list by numeric suffix. -/
def generate_inverse_tree (num_vars : ℕ) (levels branching : ℤ) (fullness : ℚ) :
    List (ℕ × List ℕ) :=
  let tree_parents := generate_tree num_vars levels branching fullness
  let inv0 := (List.range' 1 num_vars).foldl
    (fun d i => dictSet d i ([] : List ℕ)) []
  let inv1 := tree_parents.foldl
    (fun d ce => ce.2.foldl (fun d2 p => dictModify d2 p (fun l => l ++ [ce.1])) d) inv0
  inv1.map (fun kv => (kv.1, List.insertionSort (fun a b => a ≤ b) kv.2))

/-- The ordered pairs `(i, j)` with `i + 2 ≤ j < n`, in the iteration
order of the nested `for` loops of `generate_random_dag` (0-based indices
into `var_names`). -/
def dagExtraPairs (num_vars : ℕ) : List (ℕ × ℕ) :=
  (List.range num_vars).flatMap
    (fun i => (List.range' (i + 2) (num_vars - (i + 2))).map (fun j => (i, j)))

/-- `generate_random_dag(num_vars, extra_edge_prob)`: a chain for
connectivity, then each candidate extra edge added when its draw is below
the threshold and the edge is not already present; parent lists sorted by
numeric suffix.  `draws k` is the `k`-th `random.random()` call. -/
def generate_random_dag (num_vars : ℕ) (extra_edge_prob : ℚ) (draws : ℕ → ℚ) :
    List (ℕ × List ℕ) :=
  let parents0 := (List.range' 1 num_vars).foldl
    (fun d i => dictSet d i ([] : List ℕ)) []
  let chain := (List.range' 1 (num_vars - 1)).foldl
    (fun d i => dictModify d (i + 1) (fun l => l ++ [i])) parents0
  let withExtra := (dagExtraPairs num_vars).enum.foldl
    (fun d kp =>
      if draws kp.1 < extra_edge_prob then
        (if (kp.2.1 + 1) ∈ dictGetD d (kp.2.2 + 1) [] then d
         else dictModify d (kp.2.2 + 1) (fun l => l ++ [kp.2.1 + 1]))
      else d) chain
  withExtra.map (fun kv => (kv.1, List.insertionSort (fun a b => a ≤ b) kv.2))

/-- C3's asserted shape of a generated topology over `X1..Xn`: keys are
exactly `X1..Xn`, every edge points from a lower to a higher index, and
every node but the root `X1` has at least one parent. -/
def topoKeysEdges (n : ℕ) (m : List (ℕ × List ℕ)) : Prop :=
  dictKeys m = List.range' 1 n ∧
  (∀ x ∈ m, ∀ p ∈ x.2, 1 ≤ p ∧ p < x.1) ∧
  (∀ v ∈ List.range' 1 n, v ≠ 1 → dictGetD m v [] ≠ [])

/-- `p` is a parent of `v` in the parent map `d`, restricted to the
vertex list `vn`. -/
def parentEdge (vn : List ℕ) (d : List (ℕ × List ℕ)) (p v : ℕ) : Prop :=
  v ∈ vn ∧ p ∈ dictGetD d v []

/-- The parent graph has a (directed) cycle. -/
def hasCycleOn (vn : List ℕ) (d : List (ℕ × List ℕ)) : Prop :=
  ∃ v, Relation.TransGen (parentEdge vn d) v v

theorem dictSet_fresh {κ α : Type} [DecidableEq κ] (d : List (κ × α)) (k : κ) (v : α)
    (h : k ∉ dictKeys d) : dictSet d k v = d ++ [(k, v)] := by
  induction d with
  | nil => rfl
  | cons hd tl ih =>
    obtain ⟨k1, v1⟩ := hd
    simp only [dictKeys, List.map_cons, List.mem_cons, not_or] at h
    rw [dictSet, if_neg (fun e => h.1 e.symm), ih h.2]
    rfl

theorem foldl_dictSet_map {α : Type} (f : ℕ → α) :
    ∀ (n s : ℕ), (List.range' s n).foldl (fun d i => dictSet d i (f i)) [] =
      (List.range' s n).map (fun i => (i, f i)) := by
  have general : ∀ (l : List ℕ) (d : List (ℕ × α)), l.Nodup →
      (∀ i ∈ l, i ∉ dictKeys d) →
      l.foldl (fun d i => dictSet d i (f i)) d = d ++ l.map (fun i => (i, f i)) := by
    intro l
    induction l with
    | nil => intro d _ _; simp
    | cons i t ih =>
      intro d hnd hfresh
      rw [List.foldl_cons, List.map_cons,
        dictSet_fresh d i (f i) (hfresh i (List.mem_cons_self _ _)),
        ih _ (List.Nodup.of_cons hnd) ?_]
      · simp
      · intro j hj
        simp only [dictKeys, List.map_append, List.mem_append]
        push_neg
        refine ⟨fun hc => hfresh j (List.mem_cons_of_mem _ hj) hc, ?_⟩
        simp only [List.map_cons, List.map_nil, List.mem_singleton]
        intro he
        rw [he] at hj
        exact (List.nodup_cons.mp hnd).1 hj
  intro n s
  have hnd : (List.range' s n).Nodup := by
    apply List.nodup_range'
    exact Nat.one_pos
  rw [general (List.range' s n) [] hnd (by simp [dictKeys])]
  simp

theorem dictGet?_map_keyed {α : Type} (f : ℕ → α) :
    ∀ (l : List ℕ) (v : ℕ),
    dictGet? (l.map (fun i => (i, f i))) v = if v ∈ l then some (f v) else none := by
  intro l
  induction l with
  | nil => intro v; simp [dictGet?]
  | cons i t ih =>
    intro v
    by_cases hv : i = v
    · subst hv
      simp [dictGet?]
    · rw [List.map_cons]
      show (if i = v then some (f i) else dictGet? (t.map (fun i => (i, f i))) v) = _
      rw [if_neg hv, ih v]
      by_cases hvt : v ∈ t
      · simp [hvt]
      · simp [hvt, hv, Ne.symm hv]

theorem dictKeys_map_keyed {α : Type} (f : ℕ → α) (l : List ℕ) :
    dictKeys (l.map (fun i => (i, f i))) = l := by
  unfold dictKeys
  rw [List.map_map]
  have hc : (Prod.fst ∘ fun i => (i, f i)) = fun (i : ℕ) => i := rfl
  rw [hc]
  exact List.map_id' l

theorem generate_chain_props (n : ℕ) : topoKeysEdges n (generate_chain n) := by
  have heq : generate_chain n =
      (List.range' 1 n).map (fun i => (i, if i = 1 then [] else [i - 1])) :=
    foldl_dictSet_map _ n 1
  refine ⟨?_, ?_, ?_⟩
  · rw [heq, dictKeys_map_keyed]
  · intro x hx p hp
    rw [heq] at hx
    obtain ⟨i, hi, hxi⟩ := List.mem_map.mp hx
    have hib : 1 ≤ i := (List.mem_range'_1.mp hi).1
    rw [← hxi] at hp ⊢
    simp only at hp ⊢
    by_cases h1 : i = 1
    · rw [if_pos h1] at hp
      exact absurd hp (List.not_mem_nil p)
    · rw [if_neg h1] at hp
      rw [List.mem_singleton] at hp
      subst hp
      omega
  · intro v hv h1
    rw [heq]
    unfold dictGetD
    rw [dictGet?_map_keyed _ _ v, if_pos hv]
    simp only [Option.getD_some]
    rw [if_neg h1]
    simp

/-- Loop invariant of the breadth-first tree construction: keys stay
`X1..Xn`, every recorded edge goes from a lower (≥ 1) to a higher index,
the next index stays within `[1, n]`, queue entries and the last-assigned
node never exceed the next index, and all assigned non-root nodes already
have a parent. -/
def TreeInv (n : ℕ) (st : TreeSt) : Prop :=
  dictKeys st.parents = List.range' 1 n ∧
  (∀ x ∈ st.parents, ∀ p ∈ x.2, 1 ≤ p ∧ p < x.1) ∧
  1 ≤ st.nextIndex ∧ st.nextIndex ≤ n ∧
  (∀ q ∈ st.queue, 1 ≤ q.1 ∧ q.1 ≤ st.nextIndex) ∧
  (∀ a, st.lastAssigned = some a → 1 ≤ a ∧ a ≤ st.nextIndex) ∧
  (∀ v, 2 ≤ v → v ≤ st.nextIndex → dictGetD st.parents v [] ≠ [])

theorem dictSet_child_inv (n : ℕ) (d : List (ℕ × List ℕ)) (child cur : ℕ)
    (hkeys : dictKeys d = List.range' 1 n)
    (hedges : ∀ x ∈ d, ∀ p ∈ x.2, 1 ≤ p ∧ p < x.1)
    (hne : ∀ v, 2 ≤ v → v ≤ child - 1 → dictGetD d v [] ≠ [])
    (hcur : 1 ≤ cur) (hlt : cur < child) (hcn : child ≤ n) :
    dictKeys (dictSet d child [cur]) = List.range' 1 n ∧
    (∀ x ∈ dictSet d child [cur], ∀ p ∈ x.2, 1 ≤ p ∧ p < x.1) ∧
    (∀ v, 2 ≤ v → v ≤ child → dictGetD (dictSet d child [cur]) v [] ≠ []) := by
  have hmem : child ∈ dictKeys d := by
    rw [hkeys, List.mem_range'_1]
    omega
  refine ⟨?_, ?_, ?_⟩
  · rw [dictKeys_dictSet _ _ _ hmem, hkeys]
  · intro x hx p hp
    rcases mem_dictSet _ _ _ _ hx with h | h
    · exact hedges x h p hp
    · rw [h] at hp ⊢
      rw [List.mem_singleton] at hp
      subst hp
      exact ⟨hcur, hlt⟩
  · intro v h2 hvc
    by_cases hv : v = child
    · subst hv
      unfold dictGetD
      rw [dictGet?_dictSet_self]
      simp
    · unfold dictGetD
      rw [dictGet?_dictSet_ne _ _ _ _ (fun e => hv e.symm)]
      exact hne v h2 (by omega)

theorem assignChildren_inv (n current : ℕ) (level : ℤ) :
    ∀ (cnt : ℕ) (st : TreeSt), TreeInv n st → 1 ≤ current →
    current ≤ st.nextIndex → st.nextIndex + cnt ≤ n →
    TreeInv n (assignChildren n current level cnt st) ∧
    st.nextIndex ≤ (assignChildren n current level cnt st).nextIndex ∧
    (assignChildren n current level cnt st).lastAssigned = st.lastAssigned := by
  intro cnt
  induction cnt with
  | zero =>
    intro st hinv _ _ _
    exact ⟨hinv, Nat.le_refl _, rfl⟩
  | succ c ih =>
    intro st hinv hcur hcn hbound
    obtain ⟨hkeys, hedges, hni1, hnin, hqueue, hlast, hne⟩ := hinv
    have hd := dictSet_child_inv n st.parents (st.nextIndex + 1) current hkeys hedges
      (by intro v h2 hv; exact hne v h2 (by omega)) hcur (by omega) (by omega)
    set st2 : TreeSt :=
      { parents := dictSet st.parents (st.nextIndex + 1) [current],
        queue := st.queue ++ [(st.nextIndex + 1, level + 1)],
        nextIndex := st.nextIndex + 1,
        lastAssigned := st.lastAssigned } with hst2
    have h2n : st2.nextIndex = st.nextIndex + 1 := rfl
    have h2l : st2.lastAssigned = st.lastAssigned := rfl
    have hinv2 : TreeInv n st2 := by
      refine ⟨hd.1, hd.2.1, ?_, ?_, ?_, ?_, ?_⟩
      · rw [h2n]; omega
      · rw [h2n]; omega
      · intro q hq
        rw [h2n]
        have hq2 : q ∈ st.queue ++ [(st.nextIndex + 1, level + 1)] := hq
        rcases List.mem_append.mp hq2 with h | h
        · have := hqueue q h
          omega
        · rw [List.mem_singleton] at h
          rw [h]
          exact ⟨by omega, by omega⟩
      · intro a ha
        rw [h2n]
        have := hlast a (h2l ▸ ha)
        omega
      · intro v h2 hv
        rw [h2n] at hv
        exact hd.2.2 v h2 hv
    have hunfold : assignChildren n current level (c + 1) st =
        if n ≤ st2.nextIndex then st2 else assignChildren n current level c st2 := rfl
    rw [hunfold]
    by_cases hstop : n ≤ st2.nextIndex
    · rw [if_pos hstop]
      exact ⟨hinv2, by rw [h2n]; omega, h2l⟩
    · rw [if_neg hstop]
      have hrec := ih st2 hinv2 hcur (by rw [h2n]; omega) (by rw [h2n]; omega)
      refine ⟨hrec.1, ?_, ?_⟩
      · have := hrec.2.1
        rw [h2n] at this
        omega
      · rw [hrec.2.2, h2l]

theorem treeLoopF_inv (n : ℕ) (levels branching : ℤ) (fullness : ℚ) :
    ∀ (fuel : ℕ) (st : TreeSt), TreeInv n st →
    TreeInv n (treeLoopF n levels branching fullness fuel st) := by
  intro fuel
  induction fuel with
  | zero => intro st hinv; exact hinv
  | succ fuel ih =>
    intro st hinv
    obtain ⟨hkeys, hedges, hni1, hnin, hqueue, hlast, hne⟩ := hinv
    show TreeInv n (match st.queue with
      | [] => st
      | (current, level) :: qrest => _)
    cases hq : st.queue with
    | nil => exact ⟨hkeys, hedges, hni1, hnin, hqueue, hlast, hne⟩
    | cons cl qrest =>
      obtain ⟨current, level⟩ := cl
      show TreeInv n (if n ≤ st.nextIndex then st else _)
      by_cases hstop : n ≤ st.nextIndex
      · rw [if_pos hstop]
        exact ⟨hkeys, hedges, hni1, hnin, hqueue, hlast, hne⟩
      · rw [if_neg hstop]
        have hcurb : 1 ≤ current ∧ current ≤ st.nextIndex :=
          hqueue (current, level) (by rw [hq]; exact List.mem_cons_self _ _)
        have hqrest : ∀ q ∈ qrest, 1 ≤ q.1 ∧ q.1 ≤ st.nextIndex :=
          fun q hqm => hqueue q (by rw [hq]; exact List.mem_cons_of_mem _ hqm)
        by_cases hlev : levels ≤ level
        · rw [if_pos hlev]
          exact ih _ ⟨hkeys, hedges, hni1, hnin, hqrest, hlast, hne⟩
        · rw [if_neg hlev]
          set nch : ℤ := min (pyRound (1 + fullness * ((branching : ℚ) - 1)))
            ((n : ℤ) - (st.nextIndex : ℤ)) with hnch
          set stl : TreeSt := if 0 < nch then
              { st with queue := qrest, lastAssigned := some current } else
              { st with queue := qrest } with hstl
          have hln : stl.nextIndex = st.nextIndex := by
            rw [hstl]
            by_cases hpos : 0 < nch
            · rw [if_pos hpos]
            · rw [if_neg hpos]
          have hlp : stl.parents = st.parents := by
            rw [hstl]
            by_cases hpos : 0 < nch
            · rw [if_pos hpos]
            · rw [if_neg hpos]
          have hlq : stl.queue = qrest := by
            rw [hstl]
            by_cases hpos : 0 < nch
            · rw [if_pos hpos]
            · rw [if_neg hpos]
          have hinv2 : TreeInv n stl := by
            refine ⟨by rw [hlp]; exact hkeys, by rw [hlp]; exact hedges,
              by rw [hln]; omega, by rw [hln]; omega, ?_, ?_, ?_⟩
            · intro q hqm
              rw [hln]
              exact hqrest q (by rw [← hlq]; exact hqm)
            · intro a ha
              rw [hln]
              rw [hstl] at ha
              by_cases hpos : 0 < nch
              · rw [if_pos hpos] at ha
                have ha2 : some current = some a := ha
                have : current = a := Option.some.inj ha2
                omega
              · rw [if_neg hpos] at ha
                have ha2 : st.lastAssigned = some a := ha
                have := hlast a ha2
                omega
            · intro v h2 hv
              rw [hlp]
              rw [hln] at hv
              exact hne v h2 hv
          have hcnt : stl.nextIndex + nch.toNat ≤ n := by
            have h1 : nch ≤ (n : ℤ) - (st.nextIndex : ℤ) := min_le_right _ _
            rw [hln]
            omega
          have hres := assignChildren_inv n current level nch.toNat stl hinv2
            hcurb.1 (by rw [hln]; exact hcurb.2) hcnt
          exact ih _ hres.1

theorem leftover_fold_inv (n : ℕ) :
    ∀ (k a : ℕ) (d : List (ℕ × List ℕ)) (attach : ℕ),
    a + k ≤ n → 1 ≤ a →
    dictKeys d = List.range' 1 n →
    (∀ x ∈ d, ∀ p ∈ x.2, 1 ≤ p ∧ p < x.1) →
    1 ≤ attach → attach ≤ a →
    (∀ v, 2 ≤ v → v ≤ a → dictGetD d v [] ≠ []) →
    (dictKeys ((List.range' a k).foldl
      (fun (p : List (ℕ × List ℕ) × ℕ) i =>
        let child := i + 1
        let attach2 := if child = p.2 then 1 else p.2
        (dictSet p.1 child [attach2], attach2)) (d, attach)).1 = List.range' 1 n) ∧
    (∀ x ∈ ((List.range' a k).foldl
      (fun (p : List (ℕ × List ℕ) × ℕ) i =>
        let child := i + 1
        let attach2 := if child = p.2 then 1 else p.2
        (dictSet p.1 child [attach2], attach2)) (d, attach)).1, ∀ q ∈ x.2, 1 ≤ q ∧ q < x.1) ∧
    (∀ v, 2 ≤ v → v ≤ a + k → dictGetD ((List.range' a k).foldl
      (fun (p : List (ℕ × List ℕ) × ℕ) i =>
        let child := i + 1
        let attach2 := if child = p.2 then 1 else p.2
        (dictSet p.1 child [attach2], attach2)) (d, attach)).1 v [] ≠ []) := by
  intro k
  induction k with
  | zero =>
    intro a d attach _ _ hkeys hedges _ _ hne
    exact ⟨hkeys, hedges, fun v h2 hv => hne v h2 (by omega)⟩
  | succ k ih =>
    intro a d attach hbound ha hkeys hedges hat1 hata hne
    rw [List.range'_succ, List.foldl_cons]
    set attach2 := if a + 1 = attach then 1 else attach with hat2
    have hat2b : 1 ≤ attach2 ∧ attach2 ≤ a := by
      rw [hat2]
      by_cases he : a + 1 = attach
      · rw [if_pos he]
        omega
      · rw [if_neg he]
        omega
    have hd := dictSet_child_inv n d (a + 1) attach2 hkeys hedges
      (by intro v h2 hv; exact hne v h2 (by omega)) hat2b.1 (by omega) (by omega)
    have := ih (a + 1) (dictSet d (a + 1) [attach2]) attach2 (by omega) (by omega)
      hd.1 hd.2.1 hat2b.1 (by omega) hd.2.2
    exact ⟨this.1, this.2.1, fun v h2 hv => this.2.2 v h2 (by omega)⟩

theorem generate_tree_props (n : ℕ) (hn : 1 ≤ n) (levels branching : ℤ) (fullness : ℚ) :
    topoKeysEdges n (generate_tree n levels branching fullness) := by
  have hkeys0 : dictKeys ((List.range' 1 n).foldl
      (fun d i => dictSet d i ([] : List ℕ)) []) = List.range' 1 n := by
    rw [foldl_dictSet_map (fun _ => ([] : List ℕ)) n 1, dictKeys_map_keyed]
  have hedges0 : ∀ x ∈ (List.range' 1 n).foldl
      (fun d i => dictSet d i ([] : List ℕ)) [], ∀ p ∈ x.2, 1 ≤ p ∧ p < x.1 := by
    rw [foldl_dictSet_map (fun _ => ([] : List ℕ)) n 1]
    intro x hx p hp
    obtain ⟨i, _, hxi⟩ := List.mem_map.mp hx
    rw [← hxi] at hp
    exact absurd hp (List.not_mem_nil p)
  have hinv0 : TreeInv n
      { parents := (List.range' 1 n).foldl (fun d i => dictSet d i ([] : List ℕ)) [],
        queue := [(1, 1)], nextIndex := 1, lastAssigned := none } := by
    refine ⟨hkeys0, hedges0, Nat.le_refl 1, hn, ?_, ?_, ?_⟩
    · intro q hq
      rw [List.mem_singleton] at hq
      rw [hq]
      exact ⟨Nat.le_refl 1, Nat.le_refl 1⟩
    · intro a ha
      exact absurd ha (by simp)
    · intro v h2 hv
      dsimp only at hv
      omega
  have hst := treeLoopF_inv n levels branching fullness (2 * n + 2) _ hinv0
  set st := treeLoopF n levels branching fullness (2 * n + 2)
    { parents := (List.range' 1 n).foldl (fun d i => dictSet d i ([] : List ℕ)) [],
      queue := [(1, 1)], nextIndex := 1, lastAssigned := none } with hstdef
  obtain ⟨hkeys, hedges, hni1, hnin, _, hlast, hne⟩ := hst
  show topoKeysEdges n (if st.nextIndex < n then _ else st.parents)
  by_cases hfin : st.nextIndex < n
  · rw [if_pos hfin]
    have hatb : 1 ≤ st.lastAssigned.getD 1 ∧ st.lastAssigned.getD 1 ≤ st.nextIndex := by
      cases hla : st.lastAssigned with
      | none => simp; omega
      | some a =>
        have := hlast a hla
        simp
        omega
    have := leftover_fold_inv n (n - st.nextIndex) st.nextIndex st.parents
      (st.lastAssigned.getD 1) (by omega) hni1 hkeys hedges hatb.1 hatb.2 hne
    refine ⟨this.1, this.2.1, ?_⟩
    intro v hv h1
    have hvb := List.mem_range'_1.mp hv
    exact this.2.2 v (by omega) (by omega)
  · rw [if_neg hfin]
    refine ⟨hkeys, hedges, ?_⟩
    intro v hv h1
    have hvb := List.mem_range'_1.mp hv
    exact hne v (by omega) (by omega)

theorem mem_dictModify_key {κ α : Type} [DecidableEq κ] (d : List (κ × α)) (k : κ)
    (f : α → α) (x : κ × α) (hx : x ∈ dictModify d k f) :
    x ∈ d ∨ ∃ v, (k, v) ∈ d ∧ x = (k, f v) := by
  induction d with
  | nil => simp [dictModify] at hx
  | cons hd tl ih =>
    obtain ⟨k1, v1⟩ := hd
    by_cases hk : k1 = k
    · subst hk
      have hred : dictModify ((k1, v1) :: tl) k1 f = (k1, f v1) :: tl := by
        simp [dictModify]
      rw [hred] at hx
      rcases List.mem_cons.mp hx with h2 | h2
      · right
        exact ⟨v1, List.mem_cons_self _ _, h2⟩
      · left
        exact List.mem_cons_of_mem _ h2
    · have hred : dictModify ((k1, v1) :: tl) k f = (k1, v1) :: dictModify tl k f := by
        simp [dictModify, hk]
      rw [hred] at hx
      rcases List.mem_cons.mp hx with h2 | h2
      · left
        exact h2 ▸ List.mem_cons_self _ _
      · rcases ih h2 with h | h
        · left
          exact List.mem_cons_of_mem _ h
        · right
          obtain ⟨v, hv, he⟩ := h
          exact ⟨v, List.mem_cons_of_mem _ hv, he⟩

/-- The shape of the inverse-tree dict under construction: keys `X1..Xn`
and every recorded (reversed) edge goes from a higher to a lower index. -/
def InvTreeShape (n : ℕ) (d : List (ℕ × List ℕ)) : Prop :=
  dictKeys d = List.range' 1 n ∧ ∀ x ∈ d, ∀ c ∈ x.2, x.1 < c

theorem invtree_inner_fold (n child : ℕ) :
    ∀ (ps : List ℕ) (d : List (ℕ × List ℕ)),
    (∀ p ∈ ps, p < child) → InvTreeShape n d →
    InvTreeShape n (ps.foldl (fun d2 p => dictModify d2 p (fun l => l ++ [child])) d) := by
  intro ps
  induction ps with
  | nil => intro d _ h; exact h
  | cons p rest ih =>
    intro d hps hd
    rw [List.foldl_cons]
    refine ih _ (fun q hq => hps q (List.mem_cons_of_mem _ hq)) ⟨?_, ?_⟩
    · rw [dictKeys_dictModify]
      exact hd.1
    · intro x hx c hc
      rcases mem_dictModify_key _ _ _ _ hx with h | h
      · exact hd.2 x h c hc
      · obtain ⟨v, hv, he⟩ := h
        rw [he] at hc ⊢
        simp only at hc ⊢
        rcases List.mem_append.mp hc with h2 | h2
        · exact hd.2 (p, v) hv c h2
        · rw [List.mem_singleton] at h2
          rw [h2]
          exact hps p (List.mem_cons_self _ _)

theorem invtree_outer_fold (n : ℕ) :
    ∀ (entries : List (ℕ × List ℕ)) (d : List (ℕ × List ℕ)),
    (∀ ce ∈ entries, ∀ p ∈ ce.2, p < ce.1) → InvTreeShape n d →
    InvTreeShape n (entries.foldl
      (fun d2 ce => ce.2.foldl (fun d3 p => dictModify d3 p (fun l => l ++ [ce.1])) d2) d) := by
  intro entries
  induction entries with
  | nil => intro d _ h; exact h
  | cons ce rest ih =>
    intro d hent hd
    rw [List.foldl_cons]
    exact ih _ (fun e he => hent e (List.mem_cons_of_mem _ he))
      (invtree_inner_fold n ce.1 ce.2 d (hent ce (List.mem_cons_self _ _)) hd)

theorem generate_inverse_tree_props (n : ℕ) (hn : 1 ≤ n) (levels branching : ℤ)
    (fullness : ℚ) :
    dictKeys (generate_inverse_tree n levels branching fullness) = List.range' 1 n ∧
    (∀ x ∈ generate_inverse_tree n levels branching fullness, ∀ c ∈ x.2, x.1 < c) := by
  have htree := generate_tree_props n hn levels branching fullness
  have hshape0 : InvTreeShape n ((List.range' 1 n).foldl
      (fun d i => dictSet d i ([] : List ℕ)) []) := by
    constructor
    · rw [foldl_dictSet_map (fun _ => ([] : List ℕ)) n 1, dictKeys_map_keyed]
    · rw [foldl_dictSet_map (fun _ => ([] : List ℕ)) n 1]
      intro x hx c hc
      obtain ⟨i, _, hxi⟩ := List.mem_map.mp hx
      rw [← hxi] at hc
      exact absurd hc (List.not_mem_nil c)
  have hshape := invtree_outer_fold n (generate_tree n levels branching fullness) _
    (fun ce hce p hp => (htree.2.1 ce hce p hp).2) hshape0
  constructor
  · show dictKeys (List.map _ _) = _
    unfold dictKeys
    rw [List.map_map]
    have : ∀ l : List (ℕ × List ℕ),
        List.map (Prod.fst ∘ fun kv => (kv.1, List.insertionSort (fun a b => a ≤ b) kv.2)) l =
        List.map Prod.fst l := by
      intro l
      apply List.map_congr_left
      intro kv _
      rfl
    rw [this]
    exact hshape.1
  · intro x hx c hc
    obtain ⟨kv, hkv, hxkv⟩ := List.mem_map.mp hx
    rw [← hxkv] at hc ⊢
    simp only at hc ⊢
    have hcm : c ∈ kv.2 :=
      (List.Perm.mem_iff (List.perm_insertionSort (fun a b => a ≤ b) kv.2)).mp hc
    exact hshape.2 kv hkv c hcm

theorem no_cycle_of_lt (vn : List ℕ) (d : List (ℕ × List ℕ))
    (h : ∀ v ∈ vn, ∀ p ∈ dictGetD d v [], p < v) : ¬ hasCycleOn vn d := by
  rintro ⟨v, hv⟩
  have hstep : ∀ a b, parentEdge vn d a b → a < b := fun a b he => h b he.1 a he.2
  have hmono : ∀ a b, Relation.TransGen (parentEdge vn d) a b → a < b := by
    intro a b ht
    induction ht with
    | single h1 => exact hstep _ _ h1
    | tail _ h1 ih => exact lt_trans ih (hstep _ _ h1)
  exact lt_irrefl v (hmono v v hv)

theorem no_cycle_of_gt (vn : List ℕ) (d : List (ℕ × List ℕ))
    (h : ∀ v ∈ vn, ∀ p ∈ dictGetD d v [], v < p) : ¬ hasCycleOn vn d := by
  rintro ⟨v, hv⟩
  have hstep : ∀ a b, parentEdge vn d a b → b < a := fun a b he => h b he.1 a he.2
  have hmono : ∀ a b, Relation.TransGen (parentEdge vn d) a b → b < a := by
    intro a b ht
    induction ht with
    | single h1 => exact hstep _ _ h1
    | tail _ h1 ih => exact lt_trans (hstep _ _ h1) ih
  exact lt_irrefl v (hmono v v hv)

/-- Edge bound extracted from `topoKeysEdges`: the lookup of any vertex
yields only parents below it. -/
theorem topoKeysEdges_getD_lt (n : ℕ) (m : List (ℕ × List ℕ))
    (h : topoKeysEdges n m) : ∀ v ∈ List.range' 1 n, ∀ p ∈ dictGetD m v [], p < v := by
  intro v _ p hp
  unfold dictGetD at hp
  cases hg : dictGet? m v with
  | none =>
    rw [hg] at hp
    exact absurd hp (List.not_mem_nil p)
  | some ps =>
    rw [hg] at hp
    simp only [Option.getD_some] at hp
    have hmem : (v, ps) ∈ m := by
      clear h hp
      induction m with
      | nil => simp [dictGet?] at hg
      | cons hd tl ih =>
        obtain ⟨k1, v1⟩ := hd
        by_cases hk : k1 = v
        · subst hk
          rw [dictGet?, if_pos rfl] at hg
          rw [Option.some.inj hg]
          exact List.mem_cons_self _ _
        · rw [dictGet?, if_neg hk] at hg
          exact List.mem_cons_of_mem _ (ih hg)
    exact (h.2.1 (v, ps) hmem p hp).2

theorem dictGet?_map_values {κ α : Type} [DecidableEq κ] (g : α → α) :
    ∀ (d : List (κ × α)) (k : κ),
    dictGet? (d.map (fun kv => (kv.1, g kv.2))) k = (dictGet? d k).map g := by
  intro d
  induction d with
  | nil => intro k; rfl
  | cons hd tl ih =>
    intro k
    obtain ⟨k1, v1⟩ := hd
    by_cases hk : k1 = k
    · subst hk
      simp [dictGet?]
    · rw [List.map_cons]
      show (if k1 = k then some (g v1) else dictGet? (tl.map _) k) = _
      rw [if_neg hk, ih k]
      rw [dictGet?, if_neg hk]

theorem dag_chain_fold (n : ℕ) :
    ∀ (k a : ℕ), a + k ≤ n → 1 ≤ a →
    ∀ d : List (ℕ × List ℕ), dictKeys d = List.range' 1 n →
    (∀ x ∈ d, ∀ q ∈ x.2, 1 ≤ q ∧ q < x.1) →
    (∀ v, 2 ≤ v → v ≤ a → dictGetD d v [] ≠ []) →
    (dictKeys ((List.range' a k).foldl
      (fun d2 i => dictModify d2 (i + 1) (fun l => l ++ [i])) d) = List.range' 1 n) ∧
    (∀ x ∈ (List.range' a k).foldl
      (fun d2 i => dictModify d2 (i + 1) (fun l => l ++ [i])) d, ∀ q ∈ x.2, 1 ≤ q ∧ q < x.1) ∧
    (∀ v, 2 ≤ v → v ≤ a + k → dictGetD ((List.range' a k).foldl
      (fun d2 i => dictModify d2 (i + 1) (fun l => l ++ [i])) d) v [] ≠ []) := by
  intro k
  induction k with
  | zero =>
    intro a _ _ d hkeys hedges hne
    exact ⟨hkeys, hedges, fun v h2 hv => hne v h2 (by omega)⟩
  | succ k ih =>
    intro a hbound ha d hkeys hedges hne
    rw [List.range'_succ, List.foldl_cons]
    have hmem : a + 1 ∈ dictKeys d := by
      rw [hkeys, List.mem_range'_1]
      omega
    obtain ⟨w, hw⟩ := Option.isSome_iff_exists.mp ((dictGet?_isSome d (a + 1)).mpr hmem)
    have hkeys2 : dictKeys (dictModify d (a + 1) (fun l => l ++ [a])) = List.range' 1 n := by
      rw [dictKeys_dictModify]
      exact hkeys
    have hedges2 : ∀ x ∈ dictModify d (a + 1) (fun l => l ++ [a]),
        ∀ q ∈ x.2, 1 ≤ q ∧ q < x.1 := by
      intro x hx q hq
      rcases mem_dictModify_key _ _ _ _ hx with h | h
      · exact hedges x h q hq
      · obtain ⟨v, hv, he⟩ := h
        rw [he] at hq ⊢
        simp only at hq ⊢
        rcases List.mem_append.mp hq with h2 | h2
        · exact hedges (a + 1, v) hv q h2
        · rw [List.mem_singleton] at h2
          rw [h2]
          omega
    have hne2 : ∀ v, 2 ≤ v → v ≤ a + 1 →
        dictGetD (dictModify d (a + 1) (fun l => l ++ [a])) v [] ≠ [] := by
      intro v h2 hv
      by_cases hva : v = a + 1
      · subst hva
        unfold dictGetD
        rw [dictGet?_dictModify_self, hw]
        simp
      · unfold dictGetD
        rw [dictGet?_dictModify_ne _ _ _ _ (fun e => hva e.symm)]
        exact hne v h2 (by omega)
    have := ih (a + 1) (by omega) (by omega) _ hkeys2 hedges2 hne2
    exact ⟨this.1, this.2.1, fun v h2 hv => this.2.2 v h2 (by omega)⟩

theorem dag_extra_fold (n : ℕ) (p : ℚ) (draws : ℕ → ℚ) :
    ∀ (el : List (ℕ × (ℕ × ℕ))) (d : List (ℕ × List ℕ)),
    (∀ e ∈ el, e.2.1 + 2 ≤ e.2.2 ∧ e.2.2 < n) →
    dictKeys d = List.range' 1 n →
    (∀ x ∈ d, ∀ q ∈ x.2, 1 ≤ q ∧ q < x.1) →
    (∀ v, 2 ≤ v → v ≤ n → dictGetD d v [] ≠ []) →
    (dictKeys (el.foldl (fun d2 kp =>
      if draws kp.1 < p then
        (if (kp.2.1 + 1) ∈ dictGetD d2 (kp.2.2 + 1) [] then d2
         else dictModify d2 (kp.2.2 + 1) (fun l => l ++ [kp.2.1 + 1]))
      else d2) d) = List.range' 1 n) ∧
    (∀ x ∈ el.foldl (fun d2 kp =>
      if draws kp.1 < p then
        (if (kp.2.1 + 1) ∈ dictGetD d2 (kp.2.2 + 1) [] then d2
         else dictModify d2 (kp.2.2 + 1) (fun l => l ++ [kp.2.1 + 1]))
      else d2) d, ∀ q ∈ x.2, 1 ≤ q ∧ q < x.1) ∧
    (∀ v, 2 ≤ v → v ≤ n → dictGetD (el.foldl (fun d2 kp =>
      if draws kp.1 < p then
        (if (kp.2.1 + 1) ∈ dictGetD d2 (kp.2.2 + 1) [] then d2
         else dictModify d2 (kp.2.2 + 1) (fun l => l ++ [kp.2.1 + 1]))
      else d2) d) v [] ≠ []) := by
  intro el
  induction el with
  | nil =>
    intro d _ hkeys hedges hne
    exact ⟨hkeys, hedges, hne⟩
  | cons e rest ih =>
    intro d hel hkeys hedges hne
    rw [List.foldl_cons]
    have hee := hel e (List.mem_cons_self _ _)
    have hstep : ∀ d2 : List (ℕ × List ℕ), dictKeys d2 = List.range' 1 n →
        (∀ x ∈ d2, ∀ q ∈ x.2, 1 ≤ q ∧ q < x.1) →
        (∀ v, 2 ≤ v → v ≤ n → dictGetD d2 v [] ≠ []) →
        (d2 = dictModify d2 (e.2.2 + 1) (fun l => l ++ [e.2.1 + 1]) ∨ True) →
        dictKeys (dictModify d2 (e.2.2 + 1) (fun l => l ++ [e.2.1 + 1])) = List.range' 1 n ∧
        (∀ x ∈ dictModify d2 (e.2.2 + 1) (fun l => l ++ [e.2.1 + 1]),
          ∀ q ∈ x.2, 1 ≤ q ∧ q < x.1) ∧
        (∀ v, 2 ≤ v → v ≤ n →
          dictGetD (dictModify d2 (e.2.2 + 1) (fun l => l ++ [e.2.1 + 1])) v [] ≠ []) := by
      intro d2 hkeys2 hedges2 hne2 _
      have hmem : e.2.2 + 1 ∈ dictKeys d2 := by
        rw [hkeys2, List.mem_range'_1]
        omega
      obtain ⟨w, hw⟩ := Option.isSome_iff_exists.mp ((dictGet?_isSome d2 (e.2.2 + 1)).mpr hmem)
      refine ⟨?_, ?_, ?_⟩
      · rw [dictKeys_dictModify]
        exact hkeys2
      · intro x hx q hq
        rcases mem_dictModify_key _ _ _ _ hx with h | h
        · exact hedges2 x h q hq
        · obtain ⟨v, hv, he2⟩ := h
          rw [he2] at hq ⊢
          simp only at hq ⊢
          rcases List.mem_append.mp hq with h2 | h2
          · exact hedges2 (e.2.2 + 1, v) hv q h2
          · rw [List.mem_singleton] at h2
            rw [h2]
            omega
      · intro v h2 hv
        by_cases hva : v = e.2.2 + 1
        · subst hva
          unfold dictGetD
          rw [dictGet?_dictModify_self, hw]
          simp
        · unfold dictGetD
          rw [dictGet?_dictModify_ne _ _ _ _ (fun e2 => hva e2.symm)]
          exact hne2 v h2 hv
    by_cases hdraw : draws e.1 < p
    · rw [if_pos hdraw]
      by_cases hin : (e.2.1 + 1) ∈ dictGetD d (e.2.2 + 1) []
      · rw [if_pos hin]
        exact ih d (fun x hx => hel x (List.mem_cons_of_mem _ hx)) hkeys hedges hne
      · rw [if_neg hin]
        have := hstep d hkeys hedges hne (Or.inr trivial)
        exact ih _ (fun x hx => hel x (List.mem_cons_of_mem _ hx)) this.1 this.2.1 this.2.2
    · rw [if_neg hdraw]
      exact ih d (fun x hx => hel x (List.mem_cons_of_mem _ hx)) hkeys hedges hne

theorem mem_dagExtraPairs {n i j : ℕ} (h : (i, j) ∈ dagExtraPairs n) :
    i + 2 ≤ j ∧ j < n := by
  unfold dagExtraPairs at h
  rw [List.mem_flatMap] at h
  obtain ⟨i2, _, hm⟩ := h
  rw [List.mem_map] at hm
  obtain ⟨j2, hj2, he⟩ := hm
  have hb := List.mem_range'_1.mp hj2
  injection he with he1 he2
  omega

theorem enum_snd_mem {α : Type} (l : List α) (e : ℕ × α) (he : e ∈ l.enum) : e.2 ∈ l := by
  have h2 : e.2 ∈ l.enum.map Prod.snd := List.mem_map_of_mem Prod.snd he
  rw [List.enum_map_snd] at h2
  exact h2

theorem sorted_map_getD_ne (d : List (ℕ × List ℕ)) (v : ℕ)
    (h : dictGetD d v [] ≠ []) :
    dictGetD (d.map (fun kv => (kv.1, List.insertionSort (fun a b => a ≤ b) kv.2))) v [] ≠ [] := by
  unfold dictGetD at h ⊢
  rw [dictGet?_map_values]
  cases hg : dictGet? d v with
  | none =>
    rw [hg] at h
    exact absurd rfl h
  | some w =>
    rw [hg] at h
    simp only [Option.getD_some] at h
    simp only [Option.map_some', Option.getD_some]
    intro hcon
    have hlen := List.Perm.length_eq (List.perm_insertionSort (fun a b => a ≤ b) w)
    rw [hcon] at hlen
    exact h (List.eq_nil_of_length_eq_zero hlen.symm)

theorem generate_random_dag_props (n : ℕ) (hn : 1 ≤ n) (p : ℚ) (draws : ℕ → ℚ) :
    topoKeysEdges n (generate_random_dag n p draws) := by
  have h0keys : dictKeys ((List.range' 1 n).foldl
      (fun d i => dictSet d i ([] : List ℕ)) []) = List.range' 1 n := by
    rw [foldl_dictSet_map (fun _ => ([] : List ℕ)) n 1, dictKeys_map_keyed]
  have h0edges : ∀ x ∈ (List.range' 1 n).foldl
      (fun d i => dictSet d i ([] : List ℕ)) [], ∀ q ∈ x.2, 1 ≤ q ∧ q < x.1 := by
    rw [foldl_dictSet_map (fun _ => ([] : List ℕ)) n 1]
    intro x hx q hq
    obtain ⟨i, _, hxi⟩ := List.mem_map.mp hx
    rw [← hxi] at hq
    exact absurd hq (List.not_mem_nil q)
  have hchain := dag_chain_fold n (n - 1) 1 (by omega) (Nat.le_refl 1) _ h0keys h0edges
    (by intro v h2 hv; omega)
  have hchainne : ∀ v, 2 ≤ v → v ≤ n → dictGetD ((List.range' 1 (n - 1)).foldl
      (fun d2 i => dictModify d2 (i + 1) (fun l => l ++ [i]))
      ((List.range' 1 n).foldl (fun d i => dictSet d i ([] : List ℕ)) [])) v [] ≠ [] := by
    intro v h2 hv
    exact hchain.2.2 v h2 (by omega)
  have hel : ∀ e ∈ (dagExtraPairs n).enum, e.2.1 + 2 ≤ e.2.2 ∧ e.2.2 < n := by
    intro e he
    have hm : e.2 ∈ dagExtraPairs n := enum_snd_mem _ _ he
    exact mem_dagExtraPairs hm
  have hex := dag_extra_fold n p draws (dagExtraPairs n).enum _ hel
    hchain.1 hchain.2.1 hchainne
  refine ⟨?_, ?_, ?_⟩
  · show dictKeys (List.map _ _) = _
    unfold dictKeys
    rw [List.map_map]
    have hc : ∀ l : List (ℕ × List ℕ),
        List.map (Prod.fst ∘ fun kv => (kv.1, List.insertionSort (fun a b => a ≤ b) kv.2)) l =
        List.map Prod.fst l := by
      intro l
      apply List.map_congr_left
      intro kv _
      rfl
    rw [hc]
    exact hex.1
  · intro x hx q hq
    obtain ⟨kv, hkv, hxkv⟩ := List.mem_map.mp hx
    rw [← hxkv] at hq ⊢
    simp only at hq ⊢
    have hqm : q ∈ kv.2 :=
      (List.Perm.mem_iff (List.perm_insertionSort (fun a b => a ≤ b) kv.2)).mp hq
    exact hex.2.1 kv hkv q hqm
  · intro v hv h1
    have hvb := List.mem_range'_1.mp hv
    have hne := hex.2.2 v (by omega) (by omega)
    have hrw : generate_random_dag n p draws =
        ((dagExtraPairs n).enum.foldl
          (fun d2 kp => if draws kp.1 < p then
            (if (kp.2.1 + 1) ∈ dictGetD d2 (kp.2.2 + 1) [] then d2
             else dictModify d2 (kp.2.2 + 1) (fun l => l ++ [kp.2.1 + 1]))
           else d2)
          ((List.range' 1 (n - 1)).foldl
            (fun d2 i => dictModify d2 (i + 1) (fun l => l ++ [i]))
            ((List.range' 1 n).foldl (fun d i => dictSet d i ([] : List ℕ)) []))).map
          (fun kv => (kv.1, List.insertionSort (fun a b => a ≤ b) kv.2)) := rfl
    rw [hrw]
    exact sorted_map_getD_ne _ v hne

theorem dictGet?_mem {κ α : Type} [DecidableEq κ] {d : List (κ × α)} {k : κ} {v : α}
    (h : dictGet? d k = some v) : (k, v) ∈ d := by
  induction d with
  | nil => simp [dictGet?] at h
  | cons hd tl ih =>
    obtain ⟨k1, v1⟩ := hd
    by_cases hk : k1 = k
    · subst hk
      rw [dictGet?, if_pos rfl] at h
      rw [Option.some.inj h]
      exact List.mem_cons_self _ _
    · rw [dictGet?, if_neg hk] at h
      exact List.mem_cons_of_mem _ (ih h)

/-- C3 counterexample: for `inverse_tree` with `num_vars = 3`,
`levels = 3`, `branching = 2`, `fullness = 1` the result is
`{X1: [X2, X3], X2: [], X3: []}` — the edge `X2 → X1` points from a
*higher* to a lower index and the non-root `X2` has no parents, refuting
the claim for the inverse-tree strategy. -/
theorem claim_C3_counterexample :
    ¬ topoKeysEdges 3 (generate_inverse_tree 3 3 2 1) := by
  have heval : generate_inverse_tree 3 3 2 1 = [(1, [2, 3]), (2, []), (3, [])] := by
    unfold generate_inverse_tree
    norm_num [generate_tree, treeLoopF, assignChildren, pyRound, dictSet, dictModify,
      dictGetD, dictGet?, List.insertionSort, List.orderedInsert]
  intro h
  have h2 := h.2.1 (1, [2, 3]) (by rw [heval]; exact List.mem_cons_self _ _) 2
    (List.mem_cons_self _ _)
  omega

/-- C3 amended: for every `num_vars ≥ 1` and every parameter choice, the
`chain`, `full_tree` and `random_dag` strategies return parent maps with
keys exactly `X1..Xn`, every edge from a strictly lower to a strictly
higher index, and every non-root node with at least one parent; the
`inverse_tree` strategy returns keys exactly `X1..Xn` with every edge
from a strictly *higher* to a strictly lower index (and may leave several
nodes parentless).  All four results are acyclic. -/
theorem claim_C3_topology_invariants (n : ℕ) (hn : 1 ≤ n) :
    topoKeysEdges n (generate_chain n) ∧
    (∀ (levels branching : ℤ) (fullness : ℚ),
      topoKeysEdges n (generate_tree n levels branching fullness)) ∧
    (∀ (p : ℚ) (draws : ℕ → ℚ), topoKeysEdges n (generate_random_dag n p draws)) ∧
    (∀ (levels branching : ℤ) (fullness : ℚ),
      dictKeys (generate_inverse_tree n levels branching fullness) = List.range' 1 n ∧
      (∀ x ∈ generate_inverse_tree n levels branching fullness, ∀ c ∈ x.2, x.1 < c)) ∧
    (¬ hasCycleOn (List.range' 1 n) (generate_chain n)) ∧
    (∀ (levels branching : ℤ) (fullness : ℚ),
      ¬ hasCycleOn (List.range' 1 n) (generate_tree n levels branching fullness)) ∧
    (∀ (p : ℚ) (draws : ℕ → ℚ),
      ¬ hasCycleOn (List.range' 1 n) (generate_random_dag n p draws)) ∧
    (∀ (levels branching : ℤ) (fullness : ℚ),
      ¬ hasCycleOn (List.range' 1 n) (generate_inverse_tree n levels branching fullness)) := by
  have hinvgt : ∀ (levels branching : ℤ) (fullness : ℚ), ∀ v ∈ List.range' 1 n,
      ∀ c ∈ dictGetD (generate_inverse_tree n levels branching fullness) v [], v < c := by
    intro levels branching fullness v _ c hc
    unfold dictGetD at hc
    cases hg : dictGet? (generate_inverse_tree n levels branching fullness) v with
    | none =>
      rw [hg] at hc
      exact absurd hc (List.not_mem_nil c)
    | some ps =>
      rw [hg] at hc
      simp only [Option.getD_some] at hc
      exact (generate_inverse_tree_props n hn levels branching fullness).2 (v, ps)
        (dictGet?_mem hg) c hc
  refine ⟨generate_chain_props n, fun l b f => generate_tree_props n hn l b f,
    fun p d => generate_random_dag_props n hn p d,
    fun l b f => generate_inverse_tree_props n hn l b f, ?_, ?_, ?_, ?_⟩
  · exact no_cycle_of_lt _ _ (topoKeysEdges_getD_lt n _ (generate_chain_props n))
  · intro l b f
    exact no_cycle_of_lt _ _ (topoKeysEdges_getD_lt n _ (generate_tree_props n hn l b f))
  · intro p d
    exact no_cycle_of_lt _ _ (topoKeysEdges_getD_lt n _ (generate_random_dag_props n hn p d))
  · intro l b f
    exact no_cycle_of_gt _ _ (hinvgt l b f)

theorem claim_C3_witness :
    topoKeysEdges 2 (generate_chain 2) ∧
    (∀ (levels branching : ℤ) (fullness : ℚ),
      topoKeysEdges 2 (generate_tree 2 levels branching fullness)) ∧
    (∀ (p : ℚ) (draws : ℕ → ℚ), topoKeysEdges 2 (generate_random_dag 2 p draws)) ∧
    (∀ (levels branching : ℤ) (fullness : ℚ),
      dictKeys (generate_inverse_tree 2 levels branching fullness) = List.range' 1 2 ∧
      (∀ x ∈ generate_inverse_tree 2 levels branching fullness, ∀ c ∈ x.2, x.1 < c)) ∧
    (¬ hasCycleOn (List.range' 1 2) (generate_chain 2)) ∧
    (∀ (levels branching : ℤ) (fullness : ℚ),
      ¬ hasCycleOn (List.range' 1 2) (generate_tree 2 levels branching fullness)) ∧
    (∀ (p : ℚ) (draws : ℕ → ℚ),
      ¬ hasCycleOn (List.range' 1 2) (generate_random_dag 2 p draws)) ∧
    (∀ (levels branching : ℤ) (fullness : ℚ),
      ¬ hasCycleOn (List.range' 1 2) (generate_inverse_tree 2 levels branching fullness)) :=
  claim_C3_topology_invariants 2 (by decide)

/-! ## Topological sort and renaming
(`network_generator.topological_sort`, `network_generator.reassign_names`) -/

/-- The `children` / `in_degree` dict construction of `topological_sort`:
every variable starts with no children and degree zero, then each parent
relation bumps the child's degree and records the child under the parent
(`children.setdefault(p, []).append(v)`). -/
def kahnInit (var_names : List ℕ) (var_parents : List (ℕ × List ℕ)) :
    List (ℕ × List ℕ) × List (ℕ × ℤ) :=
  var_names.foldl
    (fun cd v => (dictGetD var_parents v []).foldl
      (fun cd2 p => (dictSetdefaultApp cd2.1 p v, dictModify cd2.2 v (fun x => x + 1)))
      cd)
    (var_names.foldl (fun c v => dictSet c v ([] : List ℕ)) [],
     var_names.foldl (fun dg v => dictSet dg v (0 : ℤ)) [])

/-- One `while queue:` iteration body of Kahn's algorithm: sort the queue
by numeric suffix, pop the head, append it to the order, decrement its
children's degrees and enqueue those reaching zero.  The fuel strictly
exceeds the measure `queue.length + #{v : in_degree[v] ≠ 0}`, which every
iteration decreases by one, so it is never exhausted at the call site. -/
def kahnLoop (children : List (ℕ × List ℕ)) :
    ℕ → List ℕ → List ℕ → List (ℕ × ℤ) → List ℕ
  | 0, _, sorted, _ => sorted
  | fuel + 1, queue, sorted, deg =>
    match List.insertionSort (fun a b => a ≤ b) queue with
    | [] => sorted
    | v :: qrest =>
      let step := (dictGetD children v []).foldl
        (fun (dq : List (ℕ × ℤ) × List ℕ) c =>
          let d2 := dictModify dq.1 c (fun x => x - 1)
          if dictGetD d2 c 0 = 0 then (d2, dq.2 ++ [c]) else (d2, dq.2))
        (deg, qrest)
      kahnLoop children fuel step.2 (sorted ++ [v]) step.1

/-- `network_generator.topological_sort(var_names, var_parents)`; the
`ValueError` on a cycle is modelled by `Except.error`. -/
def topological_sort (var_names : List ℕ) (var_parents : List (ℕ × List ℕ)) :
    Except String (List ℕ) :=
  let ci := kahnInit var_names var_parents
  let queue0 := var_names.filter (fun v => dictGetD ci.2 v 0 = 0)
  let sorted := kahnLoop ci.1 (2 * var_names.length + 1) queue0 [] ci.2
  if sorted.length ≠ var_names.length then Except.error "Graph is not a DAG!"
  else Except.ok sorted

/-- `network_generator.reassign_names(sorted_vars, var_parents)`: the
`i`-th variable of the order becomes `X(i+1)`; parent lists are rewritten
through the renaming. -/
def reassign_names (sorted_vars : List ℕ) (var_parents : List (ℕ × List ℕ)) :
    List ℕ × List (ℕ × List ℕ) × List (ℕ × ℕ) :=
  let ren := sorted_vars.enum.foldl (fun d iv => dictSet d iv.2 (iv.1 + 1)) []
  let new_parents := sorted_vars.foldl
    (fun np old => dictSet np (dictGetD ren old 0)
      ((dictGetD var_parents old []).map (fun p => dictGetD ren p 0))) []
  let new_names := sorted_vars.map (fun old => dictGetD ren old 0)
  (new_names, new_parents, ren)

theorem foldl_dictSet_map_nodup {α : Type} (f : ℕ → α) (l : List ℕ) (hnd : l.Nodup) :
    l.foldl (fun d i => dictSet d i (f i)) [] = l.map (fun i => (i, f i)) := by
  have general : ∀ (l2 : List ℕ) (d : List (ℕ × α)), l2.Nodup →
      (∀ i ∈ l2, i ∉ dictKeys d) →
      l2.foldl (fun d i => dictSet d i (f i)) d = d ++ l2.map (fun i => (i, f i)) := by
    intro l2
    induction l2 with
    | nil => intro d _ _; simp
    | cons i t ih =>
      intro d hnd2 hfresh
      rw [List.foldl_cons, List.map_cons,
        dictSet_fresh d i (f i) (hfresh i (List.mem_cons_self _ _)),
        ih _ (List.Nodup.of_cons hnd2) ?_]
      · simp
      · intro j hj
        simp only [dictKeys, List.map_append, List.mem_append]
        push_neg
        refine ⟨fun hc => hfresh j (List.mem_cons_of_mem _ hj) hc, ?_⟩
        simp only [List.map_cons, List.map_nil, List.mem_singleton]
        intro he
        rw [he] at hj
        exact (List.nodup_cons.mp hnd2).1 hj
  rw [general l [] hnd (by simp [dictKeys])]
  simp

theorem dictGet?_append {κ α : Type} [DecidableEq κ] :
    ∀ (d1 d2 : List (κ × α)) (k : κ),
    dictGet? (d1 ++ d2) k = ((dictGet? d1 k).map some).getD (dictGet? d2 k) := by
  intro d1
  induction d1 with
  | nil => intro d2 k; rfl
  | cons hd tl ih =>
    intro d2 k
    obtain ⟨k1, v1⟩ := hd
    by_cases hk : k1 = k
    · subst hk
      simp [dictGet?]
    · rw [List.cons_append]
      show (if k1 = k then some v1 else dictGet? (tl ++ d2) k) = _
      rw [if_neg hk, ih, dictGet?, if_neg hk]

theorem dictGetD_setdefaultApp {κ : Type} [DecidableEq κ]
    (d : List (κ × List ℕ)) (k q : κ) (x : ℕ) :
    dictGetD (dictSetdefaultApp d k x) q [] =
      (if q = k then dictGetD d k [] ++ [x] else dictGetD d q []) := by
  unfold dictSetdefaultApp
  by_cases hs : (dictGet? d k).isSome
  · rw [if_pos hs]
    obtain ⟨w, hw⟩ := Option.isSome_iff_exists.mp hs
    by_cases hq : q = k
    · subst hq
      unfold dictGetD
      rw [dictGet?_dictModify_self, hw]
      simp
    · unfold dictGetD
      rw [dictGet?_dictModify_ne _ _ _ _ (fun e => hq e.symm), if_neg hq]
  · rw [if_neg hs]
    have hnone : dictGet? d k = none := by
      cases hg : dictGet? d k with
      | none => rfl
      | some w => rw [hg] at hs; simp at hs
    by_cases hq : q = k
    · subst hq
      unfold dictGetD
      rw [dictGet?_append, hnone]
      simp [dictGet?]
    · unfold dictGetD
      rw [dictGet?_append, if_neg hq]
      cases hg : dictGet? d q with
      | none =>
        simp only [Option.map_none', Option.getD_none]
        rw [dictGet?, if_neg (fun e => hq e.symm)]
        rfl
      | some w => simp

/-- Effect of processing one variable `v` with parent list `ps` in the
`children`/`in_degree` initialisation of `topological_sort`: `v` is
appended to `children[p]` for each `p ∈ ps` and `in_degree[v]` grows by
`ps.length`. -/
theorem kahnInit_step (v : ℕ) :
    ∀ (ps : List ℕ) (cd : List (ℕ × List ℕ) × List (ℕ × ℤ)), ps.Nodup →
    (∀ q, dictGetD (ps.foldl (fun cd2 p =>
        (dictSetdefaultApp cd2.1 p v, dictModify cd2.2 v (fun x => x + 1))) cd).1 q [] =
      dictGetD cd.1 q [] ++ (if q ∈ ps then [v] else [])) ∧
    (∀ w, dictGet? (ps.foldl (fun cd2 p =>
        (dictSetdefaultApp cd2.1 p v, dictModify cd2.2 v (fun x => x + 1))) cd).2 w =
      if w = v then (dictGet? cd.2 w).map (fun x => x + (ps.length : ℤ))
      else dictGet? cd.2 w) := by
  intro ps
  induction ps with
  | nil =>
    intro cd _
    constructor
    · intro q
      simp
    · intro w
      simp only [List.foldl_nil]
      by_cases hw : w = v
      · rw [if_pos hw]
        cases h : dictGet? cd.2 w with
        | none => rfl
        | some x => simp
      · rw [if_neg hw]
  | cons p rest ih =>
    intro cd hnd
    have hp : p ∉ rest := (List.nodup_cons.mp hnd).1
    have ihr := ih (dictSetdefaultApp cd.1 p v, dictModify cd.2 v (fun x => x + 1))
      (List.nodup_cons.mp hnd).2
    rw [List.foldl_cons]
    constructor
    · intro q
      rw [ihr.1 q]
      dsimp only
      rw [dictGetD_setdefaultApp]
      by_cases hq : q = p
      · subst hq
        rw [if_pos rfl, if_neg hp, if_pos (List.mem_cons_self _ _)]
        simp
      · rw [if_neg hq]
        by_cases hqr : q ∈ rest
        · rw [if_pos hqr, if_pos (List.mem_cons_of_mem _ hqr)]
        · rw [if_neg hqr, if_neg (fun hc => (List.mem_cons.mp hc).elim hq hqr)]
    · intro w
      rw [ihr.2 w]
      dsimp only
      by_cases hw : w = v
      · subst hw
        rw [if_pos rfl, if_pos rfl, dictGet?_dictModify_self]
        cases h : dictGet? cd.2 w with
        | none => rfl
        | some x =>
          simp only [Option.map_some', List.length_cons]
          congr 1
          push_cast
          ring
      · rw [if_neg hw, if_neg hw,
          dictGet?_dictModify_ne _ _ _ _ (fun e => hw e.symm)]

/-- The full `children`/`in_degree` construction fold: starting from
dictionaries `cd`, every parent `q` collects exactly the processed
variables that list it, and every processed variable's degree grows by
its parent count. -/
theorem kahnInit_fold (vp : List (ℕ × List ℕ)) :
    ∀ (l : List ℕ) (cd : List (ℕ × List ℕ) × List (ℕ × ℤ)),
    l.Nodup → (∀ v ∈ l, (dictGetD vp v []).Nodup) →
    (∀ q, dictGetD (l.foldl (fun cd v => (dictGetD vp v []).foldl
        (fun cd2 p => (dictSetdefaultApp cd2.1 p v, dictModify cd2.2 v (fun x => x + 1)))
        cd) cd).1 q [] =
      dictGetD cd.1 q [] ++ l.filter (fun v => q ∈ dictGetD vp v [])) ∧
    (∀ w, dictGet? (l.foldl (fun cd v => (dictGetD vp v []).foldl
        (fun cd2 p => (dictSetdefaultApp cd2.1 p v, dictModify cd2.2 v (fun x => x + 1)))
        cd) cd).2 w =
      if w ∈ l then (dictGet? cd.2 w).map
        (fun x => x + ((dictGetD vp w []).length : ℤ))
      else dictGet? cd.2 w) := by
  intro l
  induction l with
  | nil =>
    intro cd _ _
    constructor
    · intro q
      simp only [List.foldl_nil, List.filter_nil, List.append_nil]
    · intro w
      simp only [List.foldl_nil]
      rw [if_neg (List.not_mem_nil w)]
  | cons v rest ih =>
    intro cd hnd hpnd
    have hv : v ∉ rest := (List.nodup_cons.mp hnd).1
    have hstep := kahnInit_step v (dictGetD vp v []) cd
      (hpnd v (List.mem_cons_self _ _))
    rw [List.foldl_cons]
    have ihr := ih ((dictGetD vp v []).foldl
        (fun cd2 p => (dictSetdefaultApp cd2.1 p v, dictModify cd2.2 v (fun x => x + 1)))
        cd) (List.nodup_cons.mp hnd).2
      (fun w hw => hpnd w (List.mem_cons_of_mem _ hw))
    constructor
    · intro q
      rw [ihr.1 q, hstep.1 q, List.filter_cons]
      by_cases hq : q ∈ dictGetD vp v []
      · simp [hq, List.append_assoc]
      · simp [hq]
    · intro w
      rw [ihr.2 w, hstep.2 w]
      by_cases hw : w = v
      · subst hw
        rw [if_neg hv, if_pos rfl, if_pos (List.mem_cons_self _ _)]
      · rw [if_neg hw]
        by_cases hwr : w ∈ rest
        · rw [if_pos hwr, if_pos (List.mem_cons_of_mem _ hwr)]
        · rw [if_neg hwr, if_neg (fun hc => (List.mem_cons.mp hc).elim hw hwr)]

/-- Characterisation of `kahnInit`: `children[q]` holds, in `var_names`
order, exactly the variables listing `q` as a parent, and `in_degree[w]`
is the parent count of `w` (present exactly for `w ∈ var_names`). -/
theorem kahnInit_spec (VN : List ℕ) (vp : List (ℕ × List ℕ)) (hnd : VN.Nodup)
    (hPnd : ∀ v ∈ VN, (dictGetD vp v []).Nodup) :
    (∀ q, dictGetD (kahnInit VN vp).1 q [] =
      VN.filter (fun v => q ∈ dictGetD vp v [])) ∧
    (∀ w, dictGet? (kahnInit VN vp).2 w =
      if w ∈ VN then some (((dictGetD vp w []).length : ℤ)) else none) := by
  have hc0 : VN.foldl (fun c v => dictSet c v ([] : List ℕ)) [] =
      VN.map (fun i => (i, ([] : List ℕ))) :=
    foldl_dictSet_map_nodup (fun _ => ([] : List ℕ)) VN hnd
  have hg0 : VN.foldl (fun dg v => dictSet dg v (0 : ℤ)) [] =
      VN.map (fun i => (i, (0 : ℤ))) :=
    foldl_dictSet_map_nodup (fun _ => (0 : ℤ)) VN hnd
  have hfold := kahnInit_fold vp VN
    (VN.foldl (fun c v => dictSet c v ([] : List ℕ)) [],
     VN.foldl (fun dg v => dictSet dg v (0 : ℤ)) []) hnd hPnd
  constructor
  · intro q
    unfold kahnInit
    rw [hfold.1 q]
    have hz : dictGetD (VN.foldl (fun c v => dictSet c v ([] : List ℕ)) []) q [] = [] := by
      unfold dictGetD
      rw [hc0, dictGet?_map_keyed]
      by_cases h : q ∈ VN
      · rw [if_pos h]
        rfl
      · rw [if_neg h]
        rfl
    rw [hz, List.nil_append]
  · intro w
    unfold kahnInit
    rw [hfold.2 w]
    by_cases hw : w ∈ VN
    · rw [if_pos hw, if_pos hw]
      have hz : dictGet? (VN.foldl (fun dg v => dictSet dg v (0 : ℤ)) []) w =
          some 0 := by
        rw [hg0, dictGet?_map_keyed, if_pos hw]
      rw [hz]
      simp
    · rw [if_neg hw, if_neg hw, hg0, dictGet?_map_keyed, if_neg hw]

/-- Effect of the inner `for child in children.get(v, [])` loop of one
Kahn iteration: every child's degree drops by one, and exactly the
children whose degree was one (hence becomes zero) are appended to the
queue, in `children[v]` order. -/
theorem kahn_step_fold :
    ∀ (L : List ℕ) (d : List (ℕ × ℤ)) (q : List ℕ),
    L.Nodup → (∀ c ∈ L, (dictGet? d c).isSome) →
    (∀ w, dictGet? (L.foldl (fun (dq : List (ℕ × ℤ) × List ℕ) c =>
        let d2 := dictModify dq.1 c (fun x => x - 1)
        if dictGetD d2 c 0 = 0 then (d2, dq.2 ++ [c]) else (d2, dq.2)) (d, q)).1 w =
      if w ∈ L then (dictGet? d w).map (fun x => x - 1) else dictGet? d w) ∧
    (L.foldl (fun (dq : List (ℕ × ℤ) × List ℕ) c =>
        let d2 := dictModify dq.1 c (fun x => x - 1)
        if dictGetD d2 c 0 = 0 then (d2, dq.2 ++ [c]) else (d2, dq.2)) (d, q)).2 =
      q ++ L.filter (fun c => dictGetD d c 0 = 1) := by
  intro L
  induction L with
  | nil =>
    intro d q _ _
    constructor
    · intro w
      simp only [List.foldl_nil]
      rw [if_neg (List.not_mem_nil w)]
    · simp only [List.foldl_nil, List.filter_nil, List.append_nil]
  | cons c rest ih =>
    intro d q hnd hsome
    have hc : c ∉ rest := (List.nodup_cons.mp hnd).1
    have hndr := (List.nodup_cons.mp hnd).2
    obtain ⟨x0, hx0⟩ := Option.isSome_iff_exists.mp
      (hsome c (List.mem_cons_self _ _))
    have hd2c : dictGet? (dictModify d c (fun x => x - 1)) c = some (x0 - 1) := by
      rw [dictGet?_dictModify_self, hx0]
      rfl
    have hgd : dictGetD d c 0 = x0 := dictGetD_of_get? 0 hx0
    have hgd2 : dictGetD (dictModify d c (fun x => x - 1)) c 0 = x0 - 1 :=
      dictGetD_of_get? 0 hd2c
    have hsome2 : ∀ w ∈ rest, (dictGet? (dictModify d c (fun x => x - 1)) w).isSome := by
      intro w hw
      have hne : c ≠ w := fun e => hc (by rw [e]; exact hw)
      rw [dictGet?_dictModify_ne _ _ _ _ hne]
      exact hsome w (List.mem_cons_of_mem _ hw)
    have hfeq : rest.filter (fun c2 => dictGetD (dictModify d c (fun x => x - 1)) c2 0 = 1) =
        rest.filter (fun c2 => dictGetD d c2 0 = 1) := by
      apply List.filter_congr
      intro c2 hc2
      have hne : c ≠ c2 := fun e => hc (by rw [e]; exact hc2)
      have heq2 : dictGetD (dictModify d c (fun x => x - 1)) c2 0 = dictGetD d c2 0 := by
        unfold dictGetD
        rw [dictGet?_dictModify_ne _ _ _ _ hne]
      rw [heq2]
    have hdeg : ∀ (q2 : List ℕ) (w : ℕ),
        dictGet? (rest.foldl (fun (dq : List (ℕ × ℤ) × List ℕ) c =>
          let d2 := dictModify dq.1 c (fun x => x - 1)
          if dictGetD d2 c 0 = 0 then (d2, dq.2 ++ [c]) else (d2, dq.2))
          (dictModify d c (fun x => x - 1), q2)).1 w =
        if w ∈ c :: rest then (dictGet? d w).map (fun x => x - 1)
        else dictGet? d w := by
      intro q2 w
      rw [(ih (dictModify d c (fun x => x - 1)) q2 hndr hsome2).1 w]
      by_cases hw : w = c
      · subst hw
        rw [if_neg hc, if_pos (List.mem_cons_self _ _), dictGet?_dictModify_self]
      · rw [dictGet?_dictModify_ne _ _ _ _ (fun e => hw e.symm)]
        by_cases hwr : w ∈ rest
        · rw [if_pos hwr, if_pos (List.mem_cons_of_mem _ hwr)]
        · rw [if_neg hwr, if_neg (fun h2 => (List.mem_cons.mp h2).elim hw hwr)]
    have hq : ∀ (q2 : List ℕ),
        (rest.foldl (fun (dq : List (ℕ × ℤ) × List ℕ) c =>
          let d2 := dictModify dq.1 c (fun x => x - 1)
          if dictGetD d2 c 0 = 0 then (d2, dq.2 ++ [c]) else (d2, dq.2))
          (dictModify d c (fun x => x - 1), q2)).2 =
        q2 ++ rest.filter (fun c2 => dictGetD d c2 0 = 1) := by
      intro q2
      rw [(ih (dictModify d c (fun x => x - 1)) q2 hndr hsome2).2, hfeq]
    rw [List.foldl_cons]
    dsimp only
    rw [hgd2]
    by_cases hone : x0 = 1
    · rw [if_pos (show x0 - 1 = 0 by omega)]
      constructor
      · intro w
        exact hdeg (q ++ [c]) w
      · rw [hq (q ++ [c]), List.filter_cons]
        have hcnd : (decide (dictGetD d c 0 = 1)) = true := by
          rw [hgd]
          exact decide_eq_true hone
        rw [hcnd]
        simp
    · rw [if_neg (show ¬ x0 - 1 = 0 by omega)]
      constructor
      · intro w
        exact hdeg q w
      · rw [hq q, List.filter_cons]
        have hcnd : (decide (dictGetD d c 0 = 1)) = false := by
          rw [hgd]
          exact decide_eq_false hone
        rw [hcnd]
        simp

theorem nodup_subset_length {l l2 : List ℕ} (h : l.Nodup) (hs : l ⊆ l2) :
    l.length ≤ l2.length := by
  calc l.length = l.toFinset.card := (List.toFinset_card_of_nodup h).symm
  _ ≤ l2.toFinset.card := Finset.card_le_card (fun a ha => by
      rw [List.mem_toFinset] at ha ⊢
      exact hs ha)
  _ ≤ l2.length := l2.toFinset_card_le

theorem filter_notmem_nil_iff (l S : List ℕ) :
    l.filter (fun p => p ∉ S) = [] ↔ ∀ p ∈ l, p ∈ S := by
  rw [List.filter_eq_nil_iff]
  constructor
  · intro h p hp
    have := h p hp
    simpa using this
  · intro h p hp
    simpa using h p hp

/-- Marking one more vertex `a` as sorted removes exactly one element
from the unsorted-parent filter of any duplicate-free list containing
`a`. -/
theorem filter_notmem_snoc {l : List ℕ} (hnd : l.Nodup) (a : ℕ) (S : List ℕ)
    (ha : a ∈ l) (haS : a ∉ S) :
    (l.filter (fun p => p ∉ S ++ [a])).length + 1 =
      (l.filter (fun p => p ∉ S)).length := by
  have h1 : l.filter (fun p => p ∉ S ++ [a]) =
      (l.filter (fun p => p ∉ S)).filter (fun p => p ≠ a) := by
    rw [List.filter_filter]
    apply List.filter_congr
    intro x _
    by_cases h1 : x ∈ S
    · simp [h1]
    · by_cases h2 : x = a
      · simp [h1, h2]
      · simp [h1, h2]
  have hm : a ∈ l.filter (fun p => p ∉ S) := by
    rw [List.mem_filter]
    exact ⟨ha, by simpa using haS⟩
  have hnd2 : (l.filter (fun p => p ∉ S)).Nodup := List.Nodup.filter _ hnd
  have h2 : (l.filter (fun p => p ∉ S)).filter (fun p => p ≠ a) =
      (l.filter (fun p => p ∉ S)).erase a := by
    rw [List.Nodup.erase_eq_filter hnd2]
    apply List.filter_congr
    intro x _
    by_cases h2 : x = a
    · simp [h2]
    · simp [h2]
  rw [h1, h2, List.length_erase_of_mem hm]
  have : 0 < (l.filter (fun p => p ∉ S)).length := List.length_pos.mpr
    (List.ne_nil_of_mem hm)
  omega

/-- An element of `l.take k` sits at a position `j < k` of `l`. -/
theorem mem_take_get {l : List ℕ} {k a : ℕ} (h : a ∈ l.take k) :
    ∃ j, ∃ hj : j < l.length, j < k ∧ l.get ⟨j, hj⟩ = a := by
  obtain ⟨⟨j, hj⟩, hget⟩ := List.mem_iff_get.mp h
  have hjl : j < l.length := by
    have := hj
    rw [List.length_take] at this
    omega
  have hjk : j < k := by
    have := hj
    rw [List.length_take] at this
    omega
  refine ⟨j, hjl, hjk, ?_⟩
  rw [← hget]
  simp [List.getElem_take']

/-- Loop invariant of the `while queue:` loop of `topological_sort`:
sorted and queued vertices are distinct variables of the network, the
degree dictionary counts each variable's not-yet-sorted parents, queued
vertices have all parents sorted, the sorted prefix is topologically
ordered, and every vertex that is neither sorted nor queued still has an
unsorted parent. -/
def KahnInv (VN : List ℕ) (vp : List (ℕ × List ℕ)) (q S : List ℕ)
    (d : List (ℕ × ℤ)) : Prop :=
  (S ++ q).Nodup ∧
  (∀ v ∈ S ++ q, v ∈ VN) ∧
  (∀ w, dictGet? d w = if w ∈ VN then
      some ((((dictGetD vp w []).filter (fun p => p ∉ S)).length : ℤ)) else none) ∧
  (∀ v ∈ q, ∀ p ∈ dictGetD vp v [], p ∈ S) ∧
  (∀ k, ∀ hk : k < S.length, ∀ p ∈ dictGetD vp (S.get ⟨k, hk⟩) [], p ∈ S.take k) ∧
  (∀ v ∈ VN, v ∉ S → v ∉ q → ∃ p ∈ dictGetD vp v [], p ∉ S)

/-- What `kahnLoop` returns: a duplicate-free, topologically ordered
list of network variables in which every missing variable still has a
missing parent. -/
def KahnFinal (VN : List ℕ) (vp : List (ℕ × List ℕ)) (R : List ℕ) : Prop :=
  R.Nodup ∧ (∀ v ∈ R, v ∈ VN) ∧
  (∀ k, ∀ hk : k < R.length, ∀ p ∈ dictGetD vp (R.get ⟨k, hk⟩) [], p ∈ R.take k) ∧
  (∀ v ∈ VN, v ∉ R → ∃ p ∈ dictGetD vp v [], p ∉ R)

/-- One Kahn iteration preserves the loop invariant: popping the least
queued vertex `v`, sorting it, decrementing its children's degrees and
enqueueing those that reach zero. -/
theorem kahnInv_step (VN : List ℕ) (vp : List (ℕ × List ℕ))
    (hnd : VN.Nodup) (hPnd : ∀ v ∈ VN, (dictGetD vp v []).Nodup)
    (children : List (ℕ × List ℕ))
    (hch : ∀ w, dictGetD children w [] = VN.filter (fun v => w ∈ dictGetD vp v []))
    (q S : List ℕ) (d : List (ℕ × ℤ)) (v : ℕ) (qrest : List ℕ)
    (hinv : KahnInv VN vp q S d)
    (hsort : List.insertionSort (fun a b => a ≤ b) q = v :: qrest)
    (d' : List (ℕ × ℤ))
    (hd' : ∀ w, dictGet? d' w =
      if w ∈ dictGetD children v [] then (dictGet? d w).map (fun x => x - 1)
      else dictGet? d w) :
    KahnInv VN vp
      (qrest ++ (dictGetD children v []).filter (fun c => dictGetD d c 0 = 1))
      (S ++ [v]) d' := by
  obtain ⟨h1, h2, h3, h4, h5, h6⟩ := hinv
  have hperm : List.Perm (v :: qrest) q := by
    have hp := List.perm_insertionSort (fun a b => a ≤ b) q
    rw [hsort] at hp
    exact hp
  have hvq : v ∈ q := hperm.mem_iff.mp (List.mem_cons_self _ _)
  have hqr_q : ∀ x ∈ qrest, x ∈ q := fun x hx =>
    hperm.mem_iff.mp (List.mem_cons_of_mem _ hx)
  obtain ⟨hSnd, hqnd, hdisj⟩ := List.nodup_append.mp h1
  have hvS : v ∉ S := fun hx => hdisj hx hvq
  have hsnd : (v :: qrest).Nodup := hperm.nodup_iff.mpr hqnd
  have hvqr : v ∉ qrest := (List.nodup_cons.mp hsnd).1
  have hqrnd : qrest.Nodup := (List.nodup_cons.mp hsnd).2
  have hvVN : v ∈ VN := h2 v (List.mem_append_right _ hvq)
  have hSVN : ∀ x ∈ S, x ∈ VN := fun x hx => h2 x (List.mem_append_left _ hx)
  have hqVN : ∀ x ∈ q, x ∈ VN := fun x hx => h2 x (List.mem_append_right _ hx)
  have hLmem : ∀ c, c ∈ dictGetD children v [] ↔
      (c ∈ VN ∧ v ∈ dictGetD vp c []) := by
    intro c
    rw [hch v, List.mem_filter]
    simp
  have hLnd : (dictGetD children v []).Nodup := by
    rw [hch v]
    exact hnd.filter _
  have hnewmem : ∀ c,
      c ∈ (dictGetD children v []).filter (fun c => dictGetD d c 0 = 1) →
      (c ∈ VN ∧ v ∈ dictGetD vp c [] ∧ dictGetD d c 0 = 1) := by
    intro c hcm
    rw [List.mem_filter] at hcm
    obtain ⟨hcl, hcd⟩ := hcm
    obtain ⟨hcVN, hcp⟩ := (hLmem c).mp hcl
    exact ⟨hcVN, hcp, by simpa using hcd⟩
  have hdval : ∀ c ∈ VN, dictGetD d c 0 =
      (((dictGetD vp c []).filter (fun p => p ∉ S)).length : ℤ) := by
    intro c hc
    unfold dictGetD
    rw [h3 c, if_pos hc]
    rfl
  have hparS : ∀ c ∈ S, ∀ p ∈ dictGetD vp c [], p ∈ S := by
    intro c hc p hp
    obtain ⟨⟨k, hk⟩, hget⟩ := List.mem_iff_get.mp hc
    have := h5 k hk p (by rw [hget]; exact hp)
    exact List.take_subset _ _ this
  have hnew_fresh : ∀ c, c ∈ VN → v ∈ dictGetD vp c [] →
      (c ∉ S ∧ c ≠ v ∧ c ∉ qrest) := by
    intro c hcVN hvp2
    refine ⟨?_, ?_, ?_⟩
    · intro hcS
      exact hvS (hparS c hcS v hvp2)
    · intro he
      subst he
      exact hvS (h4 _ hvq _ hvp2)
    · intro hcq
      exact hvS (h4 c (hqr_q c hcq) v hvp2)
  refine ⟨?_, ?_, ?_, ?_, ?_, ?_⟩
  · -- nodup of sorted ++ queue
    have hAnd : (S ++ [v] ++ qrest).Nodup := by
      have hp2 : List.Perm (S ++ q) (S ++ (v :: qrest)) :=
        List.Perm.append_left S hperm.symm
      have h' : (S ++ (v :: qrest)).Nodup := hp2.nodup_iff.mp h1
      have he : S ++ (v :: qrest) = S ++ [v] ++ qrest := by simp
      rw [he] at h'
      exact h'
    have hnewnd : ((dictGetD children v []).filter
        (fun c => dictGetD d c 0 = 1)).Nodup := hLnd.filter _
    have hdisj2 : ∀ c ∈ (dictGetD children v []).filter
        (fun c => dictGetD d c 0 = 1), c ∉ S ++ [v] ++ qrest := by
      intro c hc
      obtain ⟨hcVN, hcp, _⟩ := hnewmem c hc
      obtain ⟨hns, hnv, hnqr⟩ := hnew_fresh c hcVN hcp
      intro hmem
      rcases List.mem_append.mp hmem with hmem2 | hmem2
      · rcases List.mem_append.mp hmem2 with hmem3 | hmem3
        · exact hns hmem3
        · exact hnv (by simpa using hmem3)
      · exact hnqr hmem2
    have hall : ((S ++ [v] ++ qrest) ++ (dictGetD children v []).filter
        (fun c => dictGetD d c 0 = 1)).Nodup :=
      List.nodup_append.mpr ⟨hAnd, hnewnd, fun a ha hb => hdisj2 a hb ha⟩
    have he2 : (S ++ [v] ++ qrest) ++ (dictGetD children v []).filter
        (fun c => dictGetD d c 0 = 1) =
        (S ++ [v]) ++ (qrest ++ (dictGetD children v []).filter
        (fun c => dictGetD d c 0 = 1)) := by
      simp
    rw [he2] at hall
    exact hall
  · -- all in VN
    intro x hx
    rcases List.mem_append.mp hx with hx2 | hx2
    · rcases List.mem_append.mp hx2 with hx3 | hx3
      · exact hSVN x hx3
      · rw [List.mem_singleton] at hx3
        rw [hx3]
        exact hvVN
    · rcases List.mem_append.mp hx2 with hx3 | hx3
      · exact hqVN x (hqr_q x hx3)
      · exact (hnewmem x hx3).1
  · -- degree specification
    intro w
    rw [hd' w]
    by_cases hwL : w ∈ dictGetD children v []
    · rw [if_pos hwL]
      obtain ⟨hwVN, hwp⟩ := (hLmem w).mp hwL
      rw [h3 w, if_pos hwVN, if_pos hwVN]
      simp only [Option.map_some']
      congr 1
      have hcnt := filter_notmem_snoc (hPnd w hwVN) v S hwp hvS
      omega
    · rw [if_neg hwL]
      by_cases hwVN : w ∈ VN
      · rw [h3 w, if_pos hwVN, if_pos hwVN]
        have hvnp : v ∉ dictGetD vp w [] := fun hc =>
          hwL ((hLmem w).mpr ⟨hwVN, hc⟩)
        have hfe : (dictGetD vp w []).filter (fun p => p ∉ S) =
            (dictGetD vp w []).filter (fun p => p ∉ S ++ [v]) := by
          apply List.filter_congr
          intro p hp
          have hpv : p ≠ v := fun he => hvnp (by rw [← he]; exact hp)
          by_cases hps : p ∈ S
          · simp [hps]
          · simp [hps, hpv]
        rw [hfe]
      · rw [h3 w, if_neg hwVN, if_neg hwVN]
  · -- queued vertices have all parents sorted
    intro c hc p hp
    rcases List.mem_append.mp hc with hql | hnl
    · exact List.mem_append_left _ (h4 c (hqr_q c hql) p hp)
    · obtain ⟨hcVN, hcp, hcd⟩ := hnewmem c hnl
      have hc1 : ((dictGetD vp c []).filter (fun p => p ∉ S)).length = 1 := by
        have hh := hdval c hcVN
        rw [hcd] at hh
        exact_mod_cast hh.symm
      have hcnt := filter_notmem_snoc (hPnd c hcVN) v S hcp hvS
      have hz : ((dictGetD vp c []).filter (fun p => p ∉ S ++ [v])).length = 0 := by
        omega
      have hnil := List.length_eq_zero.mp hz
      exact (filter_notmem_nil_iff _ _).mp hnil p hp
  · -- topological order of the sorted prefix
    intro k hk p hp
    have hklt : k < S.length + 1 := by
      have := hk
      simp only [List.length_append, List.length_singleton] at this
      omega
    by_cases hks : k < S.length
    · have hget : (S ++ [v]).get ⟨k, hk⟩ = S.get ⟨k, hks⟩ := by
        simp [List.get_eq_getElem, List.getElem_append_left hks]
      rw [hget] at hp
      have hmem := h5 k hks p hp
      have htk : (S ++ [v]).take k = S.take k :=
        List.take_append_of_le_length (le_of_lt hks)
      rw [htk]
      exact hmem
    · have hkeq : k = S.length := by omega
      subst hkeq
      have hget : (S ++ [v]).get ⟨S.length, hk⟩ = v := by
        simp [List.get_eq_getElem]
      rw [hget] at hp
      have htk : (S ++ [v]).take S.length = S := List.take_left S [v]
      rw [htk]
      exact h4 v hvq p hp
  · -- unreached vertices keep an unsorted parent
    intro u huVN huS' huq'
    have huS : u ∉ S := fun hc => huS' (List.mem_append_left _ hc)
    have hune : u ≠ v := fun he =>
      huS' (List.mem_append_right _ (by rw [he]; simp))
    have huqr : u ∉ qrest := fun hc => huq' (List.mem_append_left _ hc)
    have hunew : u ∉ (dictGetD children v []).filter
        (fun c => dictGetD d c 0 = 1) := fun hc =>
      huq' (List.mem_append_right _ hc)
    have huq : u ∉ q := by
      intro hc
      rcases List.mem_cons.mp (hperm.mem_iff.mpr hc) with he | hr
      · exact hune he
      · exact huqr hr
    obtain ⟨p, hpmem, hpS⟩ := h6 u huVN huS huq
    by_cases hpv : p = v
    · have hvmem : v ∈ dictGetD vp u [] := by
        rw [← hpv]
        exact hpmem
      have huL : u ∈ dictGetD children v [] := (hLmem u).mpr ⟨huVN, hvmem⟩
      have hdne : ¬ dictGetD d u 0 = 1 := fun hc =>
        hunew (List.mem_filter.mpr ⟨huL, by simpa using hc⟩)
      have hlen_ne : ((dictGetD vp u []).filter (fun p2 => p2 ∉ S)).length ≠ 1 := by
        intro hc
        apply hdne
        rw [hdval u huVN, hc]
        rfl
      have hge1 : v ∈ (dictGetD vp u []).filter (fun p2 => p2 ∉ S) :=
        List.mem_filter.mpr ⟨hvmem, by simpa using hvS⟩
      have hFnd : ((dictGetD vp u []).filter (fun p2 => p2 ∉ S)).Nodup :=
        (hPnd u huVN).filter _
      have hlenF : 0 < (((dictGetD vp u []).filter (fun p2 => p2 ∉ S)).erase v).length := by
        have ha := List.length_erase_of_mem hge1
        have hb : 0 < ((dictGetD vp u []).filter (fun p2 => p2 ∉ S)).length :=
          List.length_pos.mpr (List.ne_nil_of_mem hge1)
        omega
      obtain ⟨p2, hp2⟩ := List.exists_mem_of_length_pos hlenF
      have hp2F : p2 ∈ (dictGetD vp u []).filter (fun p2 => p2 ∉ S) :=
        List.erase_subset _ _ hp2
      have hp2v : p2 ≠ v := fun he => hFnd.not_mem_erase (by rw [he] at hp2; exact hp2)
      obtain ⟨hp2mem, hp2Sb⟩ := List.mem_filter.mp hp2F
      refine ⟨p2, hp2mem, ?_⟩
      intro hcon
      rcases List.mem_append.mp hcon with hx | hx
      · exact (by simpa using hp2Sb : p2 ∉ S) hx
      · exact hp2v (by simpa using hx)
    · refine ⟨p, hpmem, ?_⟩
      intro hcon
      rcases List.mem_append.mp hcon with hx | hx
      · exact hpS hx
      · exact hpv (by simpa using hx)

/-- Running `kahnLoop` from an invariant state with enough fuel yields a
duplicate-free topological order in which every omitted variable still
has an omitted parent.  The fuel bound `VN.length - S.length < fuel`
never exhausts because each iteration sorts one more distinct
variable. -/
theorem kahnLoop_final (VN : List ℕ) (vp : List (ℕ × List ℕ))
    (hnd : VN.Nodup) (hPnd : ∀ v ∈ VN, (dictGetD vp v []).Nodup)
    (children : List (ℕ × List ℕ))
    (hch : ∀ w, dictGetD children w [] = VN.filter (fun v => w ∈ dictGetD vp v [])) :
    ∀ (fuel : ℕ) (q S : List ℕ) (d : List (ℕ × ℤ)),
    KahnInv VN vp q S d → VN.length - S.length < fuel →
    KahnFinal VN vp (kahnLoop children fuel q S d) := by
  intro fuel
  induction fuel with
  | zero =>
    intro q S d _ hf
    exact (Nat.not_lt_zero _ hf).elim
  | succ f ih =>
    intro q S d hinv hf
    cases hsort : List.insertionSort (fun a b => a ≤ b) q with
    | nil =>
      have hqnil : q = [] := by
        have hp := List.perm_insertionSort (fun a b => a ≤ b) q
        rw [hsort] at hp
        exact hp.nil_eq.symm
      obtain ⟨h1, h2, _h3, _h4, h5, h6⟩ := hinv
      have hres : kahnLoop children (f + 1) q S d = S := by
        simp only [kahnLoop, hsort]
      rw [hres]
      subst hqnil
      refine ⟨?_, ?_, h5, ?_⟩
      · simpa using h1
      · intro x hx
        exact h2 x (by simpa using hx)
      · intro u huVN huS
        exact h6 u huVN huS (List.not_mem_nil u)
    | cons v qrest =>
      have hstep_eq : kahnLoop children (f + 1) q S d =
          kahnLoop children f
            ((dictGetD children v []).foldl (fun (dq : List (ℕ × ℤ) × List ℕ) c =>
              let d2 := dictModify dq.1 c (fun x => x - 1)
              if dictGetD d2 c 0 = 0 then (d2, dq.2 ++ [c]) else (d2, dq.2)) (d, qrest)).2
            (S ++ [v])
            ((dictGetD children v []).foldl (fun (dq : List (ℕ × ℤ) × List ℕ) c =>
              let d2 := dictModify dq.1 c (fun x => x - 1)
              if dictGetD d2 c 0 = 0 then (d2, dq.2 ++ [c]) else (d2, dq.2)) (d, qrest)).1 := by
        simp only [kahnLoop, hsort]
      rw [hstep_eq]
      have hLnd : (dictGetD children v []).Nodup := by
        rw [hch v]
        exact hnd.filter _
      have hLsome : ∀ c ∈ dictGetD children v [], (dictGet? d c).isSome := by
        intro c hc
        have hcVN : c ∈ VN := by
          rw [hch v] at hc
          exact (List.mem_filter.mp hc).1
        rw [hinv.2.2.1 c, if_pos hcVN]
        rfl
      have hfold := kahn_step_fold (dictGetD children v []) d qrest hLnd hLsome
      rw [hfold.2]
      have hinv' := kahnInv_step VN vp hnd hPnd children hch q S d v qrest hinv hsort
        _ hfold.1
      have hS'nd : (S ++ [v]).Nodup := (List.nodup_append.mp hinv'.1).1
      have hS'sub : ∀ x ∈ S ++ [v], x ∈ VN := fun x hx =>
        hinv'.2.1 x (List.mem_append_left _ hx)
      have hle : (S ++ [v]).length ≤ VN.length := nodup_subset_length hS'nd hS'sub
      have hf' : VN.length - (S ++ [v]).length < f := by
        have hlen : (S ++ [v]).length = S.length + 1 := by simp
        rw [hlen] at hle ⊢
        omega
      exact ih _ _ _ hinv' hf'

/-- The invariant holds on entry to the loop: the queue holds the
parentless variables, nothing is sorted, and degrees equal parent
counts. -/
theorem kahnInv_init (VN : List ℕ) (vp : List (ℕ × List ℕ)) (hnd : VN.Nodup)
    (hPnd : ∀ v ∈ VN, (dictGetD vp v []).Nodup) :
    KahnInv VN vp (VN.filter (fun v => dictGetD (kahnInit VN vp).2 v 0 = 0)) []
      (kahnInit VN vp).2 := by
  have hspec := (kahnInit_spec VN vp hnd hPnd).2
  have hgd : ∀ w ∈ VN, dictGetD (kahnInit VN vp).2 w 0 =
      ((dictGetD vp w []).length : ℤ) := by
    intro w hw
    unfold dictGetD
    rw [hspec w, if_pos hw]
    rfl
  refine ⟨?_, ?_, ?_, ?_, ?_, ?_⟩
  · simpa using hnd.filter _
  · intro x hx
    rw [List.nil_append] at hx
    exact (List.mem_filter.mp hx).1
  · intro w
    rw [hspec w]
    by_cases hw : w ∈ VN
    · rw [if_pos hw, if_pos hw]
      have hfe : (dictGetD vp w []).filter (fun p => p ∉ ([] : List ℕ)) =
          dictGetD vp w [] := by simp
      rw [hfe]
    · rw [if_neg hw, if_neg hw]
  · intro v hv p hp
    obtain ⟨hvVN, hvz⟩ := List.mem_filter.mp hv
    have hz : dictGetD (kahnInit VN vp).2 v 0 = 0 := by simpa using hvz
    rw [hgd v hvVN] at hz
    have hlen : (dictGetD vp v []).length = 0 := by exact_mod_cast hz
    rw [List.length_eq_zero.mp hlen] at hp
    exact absurd hp (List.not_mem_nil p)
  · intro k hk
    exact absurd hk (by simp)
  · intro v hvVN _ hvq
    have hnz : ¬ dictGetD (kahnInit VN vp).2 v 0 = 0 := by
      intro hz
      exact hvq (List.mem_filter.mpr ⟨hvVN, by simpa using hz⟩)
    rw [hgd v hvVN] at hnz
    have hlen : (dictGetD vp v []).length ≠ 0 := by
      intro hc
      apply hnz
      rw [hc]
      rfl
    obtain ⟨p, hp⟩ := List.exists_mem_of_length_pos (Nat.pos_of_ne_zero hlen)
    exact ⟨p, hp, List.not_mem_nil p⟩

/-- Running the Kahn loop exactly as `topological_sort` does yields a
topologically ordered duplicate-free list where every missing variable
has a missing parent. -/
theorem topological_sort_run (VN : List ℕ) (vp : List (ℕ × List ℕ))
    (hnd : VN.Nodup) (hPnd : ∀ v ∈ VN, (dictGetD vp v []).Nodup) :
    KahnFinal VN vp (kahnLoop (kahnInit VN vp).1 (2 * VN.length + 1)
      (VN.filter (fun v => dictGetD (kahnInit VN vp).2 v 0 = 0)) []
      (kahnInit VN vp).2) := by
  apply kahnLoop_final VN vp hnd hPnd (kahnInit VN vp).1
    (kahnInit_spec VN vp hnd hPnd).1
    (2 * VN.length + 1) _ [] _
    (kahnInv_init VN vp hnd hPnd)
  simp only [List.length_nil]
  omega

/-- A full-length Kahn result is a permutation of the variables and
certifies acyclicity. -/
theorem kahnFinal_no_cycle (VN : List ℕ) (vp : List (ℕ × List ℕ)) (R : List ℕ)
    (hndVN : VN.Nodup) (hfin : KahnFinal VN vp R) (hlen : R.length = VN.length) :
    List.Perm R VN ∧ ¬ hasCycleOn VN vp := by
  obtain ⟨hRnd, hRsub, htopo, _⟩ := hfin
  have hfs : R.toFinset = VN.toFinset := by
    apply Finset.eq_of_subset_of_card_le
    · intro a ha
      rw [List.mem_toFinset] at ha ⊢
      exact hRsub a ha
    · rw [List.toFinset_card_of_nodup hndVN, List.toFinset_card_of_nodup hRnd, hlen]
  have hmem : ∀ a, a ∈ R ↔ a ∈ VN := by
    intro a
    constructor
    · intro ha
      exact hRsub a ha
    · intro ha
      have : a ∈ VN.toFinset := List.mem_toFinset.mpr ha
      rw [← hfs] at this
      exact List.mem_toFinset.mp this
  have hperm : List.Perm R VN := (List.perm_ext_iff_of_nodup hRnd hndVN).mpr hmem
  refine ⟨hperm, ?_⟩
  have hpos : ∀ a b, Relation.TransGen (parentEdge VN vp) a b →
      ∃ (i j : Fin R.length), i.1 < j.1 ∧ R.get i = a ∧ R.get j = b := by
    intro a b htg
    induction htg with
    | @single b h =>
      obtain ⟨hbVN, hab⟩ := h
      have hbR : b ∈ R := (hmem b).mpr hbVN
      obtain ⟨j, hj⟩ := List.mem_iff_get.mp hbR
      have hmt : a ∈ R.take j.1 := htopo j.1 j.2 a (by rw [hj]; exact hab)
      obtain ⟨i, hi, hik, hgeti⟩ := mem_take_get hmt
      exact ⟨⟨i, hi⟩, j, hik, hgeti, hj⟩
    | @tail b c htg2 h ih =>
      obtain ⟨i, j, hij, hia, hjb⟩ := ih
      obtain ⟨hcVN, hbc⟩ := h
      have hcR := (hmem _).mpr hcVN
      obtain ⟨j2, hj2⟩ := List.mem_iff_get.mp hcR
      have hmt := htopo j2.1 j2.2 _ (by rw [hj2]; exact hbc)
      obtain ⟨i2, hi2, hik2, hgeti2⟩ := mem_take_get hmt
      have hje : (⟨i2, hi2⟩ : Fin R.length) = j :=
        (List.Nodup.get_inj_iff hRnd).mp (by rw [hgeti2, hjb])
      have hv : i2 = j.1 := congrArg Fin.val hje
      refine ⟨i, j2, ?_, hia, hj2⟩
      omega
  intro hcy
  obtain ⟨v, hcyc⟩ := hcy
  obtain ⟨i, j, hij, hvi, hvj⟩ := hpos v v hcyc
  have hje : i = j := (List.Nodup.get_inj_iff hRnd).mp (by rw [hvi, hvj])
  rw [hje] at hij
  exact absurd hij (lt_irrefl _)

/-- If the Kahn loop omitted some variable, the parent map has a cycle:
iterating "pick an unsorted parent" inside the finite unsorted set must
repeat a vertex. -/
theorem kahnFinal_missing_cycle (VN : List ℕ) (vp : List (ℕ × List ℕ)) (R : List ℕ)
    (hPsub : ∀ v ∈ VN, ∀ p ∈ dictGetD vp v [], p ∈ VN)
    (hcomp : ∀ v ∈ VN, v ∉ R → ∃ p ∈ dictGetD vp v [], p ∉ R)
    (v0 : ℕ) (hv0 : v0 ∈ VN) (hv0R : v0 ∉ R) :
    hasCycleOn VN vp := by
  have hex : ∀ v, ∃ p, v ∈ VN → v ∉ R →
      (p ∈ dictGetD vp v [] ∧ p ∉ R ∧ p ∈ VN) := by
    intro v
    by_cases h : v ∈ VN ∧ v ∉ R
    · obtain ⟨p, hp1, hp2⟩ := hcomp v h.1 h.2
      exact ⟨p, fun _ _ => ⟨hp1, hp2, hPsub v h.1 p hp1⟩⟩
    · exact ⟨0, fun hv hvR => absurd ⟨hv, hvR⟩ h⟩
  choose f hf using hex
  have hgmem : ∀ k, f^[k] v0 ∈ VN ∧ f^[k] v0 ∉ R := by
    intro k
    induction k with
    | zero =>
      rw [Function.iterate_zero_apply]
      exact ⟨hv0, hv0R⟩
    | succ n ihn =>
      rw [Function.iterate_succ_apply']
      have h := hf (f^[n] v0) ihn.1 ihn.2
      exact ⟨h.2.2, h.2.1⟩
  have hedge : ∀ k, parentEdge VN vp (f^[k + 1] v0) (f^[k] v0) := by
    intro k
    have h := hf (f^[k] v0) (hgmem k).1 (hgmem k).2
    refine ⟨(hgmem k).1, ?_⟩
    rw [Function.iterate_succ_apply']
    exact h.1
  have hchain : ∀ a m, Relation.TransGen (parentEdge VN vp)
      (f^[a + m + 1] v0) (f^[a] v0) := by
    intro a m
    induction m with
    | zero => exact Relation.TransGen.single (hedge a)
    | succ n ihn =>
      have he : a + (n + 1) + 1 = (a + n + 1) + 1 := by omega
      rw [he]
      exact Relation.TransGen.head (hedge (a + n + 1)) ihn
  have hmaps : ∀ k ∈ Finset.range (VN.toFinset.card + 1), f^[k] v0 ∈ VN.toFinset :=
    fun k _ => List.mem_toFinset.mpr (hgmem k).1
  obtain ⟨i, hi, j, hj, hij, hgij⟩ :=
    Finset.exists_ne_map_eq_of_card_lt_of_maps_to (by simp) hmaps
  rcases Nat.lt_or_gt_of_ne hij with h | h
  · refine ⟨f^[i] v0, ?_⟩
    have hc := hchain i (j - i - 1)
    have he : i + (j - i - 1) + 1 = j := by omega
    rw [he] at hc
    rw [← hgij] at hc
    exact hc
  · refine ⟨f^[j] v0, ?_⟩
    have hc := hchain j (i - j - 1)
    have he : j + (i - j - 1) + 1 = i := by omega
    rw [he] at hc
    rw [hgij] at hc
    exact hc

/-- Full behaviour of `topological_sort` over duplicate-free wellformed
inputs: an `ok` result is a duplicate-free topologically ordered
permutation of the variables (so the graph is acyclic), acyclicity
guarantees an `ok` result, and a cycle produces exactly the
`ValueError`. -/
theorem topological_sort_spec (VN : List ℕ) (vp : List (ℕ × List ℕ))
    (hnd : VN.Nodup) (hPnd : ∀ v ∈ VN, (dictGetD vp v []).Nodup)
    (hPsub : ∀ v ∈ VN, ∀ p ∈ dictGetD vp v [], p ∈ VN) :
    (∀ L, topological_sort VN vp = Except.ok L →
      (L.Nodup ∧ List.Perm L VN ∧
       (∀ k, ∀ hk : k < L.length, ∀ p ∈ dictGetD vp (L.get ⟨k, hk⟩) [], p ∈ L.take k) ∧
       ¬ hasCycleOn VN vp)) ∧
    (¬ hasCycleOn VN vp → ∃ L, topological_sort VN vp = Except.ok L) ∧
    (hasCycleOn VN vp → topological_sort VN vp = Except.error "Graph is not a DAG!") := by
  have hfin := topological_sort_run VN vp hnd hPnd
  have hdef : topological_sort VN vp =
      if (kahnLoop (kahnInit VN vp).1 (2 * VN.length + 1)
          (VN.filter (fun v => dictGetD (kahnInit VN vp).2 v 0 = 0)) []
          (kahnInit VN vp).2).length ≠ VN.length
      then Except.error "Graph is not a DAG!"
      else Except.ok (kahnLoop (kahnInit VN vp).1 (2 * VN.length + 1)
          (VN.filter (fun v => dictGetD (kahnInit VN vp).2 v 0 = 0)) []
          (kahnInit VN vp).2) := rfl
  by_cases hlen : (kahnLoop (kahnInit VN vp).1 (2 * VN.length + 1)
      (VN.filter (fun v => dictGetD (kahnInit VN vp).2 v 0 = 0)) []
      (kahnInit VN vp).2).length = VN.length
  · have hok : topological_sort VN vp =
        Except.ok (kahnLoop (kahnInit VN vp).1 (2 * VN.length + 1)
          (VN.filter (fun v => dictGetD (kahnInit VN vp).2 v 0 = 0)) []
          (kahnInit VN vp).2) := by
      rw [hdef, if_neg (fun hc => hc hlen)]
    obtain ⟨hperm, hnocyc⟩ := kahnFinal_no_cycle VN vp _ hnd hfin hlen
    refine ⟨?_, fun _ => ⟨_, hok⟩, fun hcyc => absurd hcyc hnocyc⟩
    intro L hL
    rw [hok] at hL
    have hLe : kahnLoop (kahnInit VN vp).1 (2 * VN.length + 1)
        (VN.filter (fun v => dictGetD (kahnInit VN vp).2 v 0 = 0)) []
        (kahnInit VN vp).2 = L := by
      injection hL
    rw [← hLe]
    exact ⟨hfin.1, hperm, hfin.2.2.1, hnocyc⟩
  · have herr : topological_sort VN vp = Except.error "Graph is not a DAG!" := by
      rw [hdef, if_pos hlen]
    have hle : (kahnLoop (kahnInit VN vp).1 (2 * VN.length + 1)
        (VN.filter (fun v => dictGetD (kahnInit VN vp).2 v 0 = 0)) []
        (kahnInit VN vp).2).length ≤ VN.length :=
      nodup_subset_length hfin.1 (fun a ha => hfin.2.1 a ha)
    have hmiss : ∃ v ∈ VN, v ∉ kahnLoop (kahnInit VN vp).1 (2 * VN.length + 1)
        (VN.filter (fun v => dictGetD (kahnInit VN vp).2 v 0 = 0)) []
        (kahnInit VN vp).2 := by
      by_contra hc
      push_neg at hc
      have hge : VN.length ≤ (kahnLoop (kahnInit VN vp).1 (2 * VN.length + 1)
          (VN.filter (fun v => dictGetD (kahnInit VN vp).2 v 0 = 0)) []
          (kahnInit VN vp).2).length :=
        nodup_subset_length hnd (fun a ha => hc a ha)
      omega
    obtain ⟨v0, hv0, hv0R⟩ := hmiss
    have hcyc := kahnFinal_missing_cycle VN vp _ hPsub hfin.2.2.2 v0 hv0 hv0R
    refine ⟨?_, fun hnc => absurd hcyc hnc, fun _ => herr⟩
    intro L hL
    rw [herr] at hL
    simp at hL

/-- Folding `dictSet` over fresh keys builds the keyed association
list. -/
theorem foldl_dictSet_keyed {β α : Type} (key : β → ℕ) (val : β → α) :
    ∀ (xs : List β), (xs.map key).Nodup →
    xs.foldl (fun d x => dictSet d (key x) (val x)) [] =
      xs.map (fun x => (key x, val x)) := by
  have general : ∀ (xs : List β) (d : List (ℕ × α)), (xs.map key).Nodup →
      (∀ x ∈ xs, key x ∉ dictKeys d) →
      xs.foldl (fun d x => dictSet d (key x) (val x)) d =
        d ++ xs.map (fun x => (key x, val x)) := by
    intro xs
    induction xs with
    | nil =>
      intro d _ _
      simp
    | cons x t ih =>
      intro d hnd2 hfresh
      have hnd3 : (key x :: t.map key).Nodup := by simpa using hnd2
      rw [List.foldl_cons, List.map_cons,
        dictSet_fresh d (key x) (val x) (hfresh x (List.mem_cons_self _ _)),
        ih _ (List.nodup_cons.mp hnd3).2 ?_]
      · simp
      · intro y hy
        simp only [dictKeys, List.map_append, List.mem_append]
        push_neg
        constructor
        · exact fun hc => hfresh y (List.mem_cons_of_mem _ hy) hc
        · simp only [List.map_cons, List.map_nil, List.mem_singleton]
          intro he
          have h1 : key x ∉ t.map key := (List.nodup_cons.mp hnd3).1
          exact h1 (by rw [← he]; exact List.mem_map_of_mem key hy)
  intro xs hnd
  rw [general xs [] hnd (by simp [dictKeys])]
  simp

/-- Looking a list element up in the enumerated renaming dictionary
returns its position (offset by the enumeration start, plus one). -/
theorem enum_ren_get (L : List ℕ) (hnd : L.Nodup) :
    ∀ (s k : ℕ) (hk : k < L.length),
    dictGet? ((L.enumFrom s).map (fun iv => (iv.2, iv.1 + 1))) (L.get ⟨k, hk⟩) =
      some (s + k + 1) := by
  induction L with
  | nil =>
    intro s k hk
    exact absurd hk (by simp)
  | cons a t ih =>
    intro s k hk
    cases k with
    | zero =>
      simp [List.enumFrom_cons, dictGet?]
    | succ k2 =>
      have hk2 : k2 < t.length := by simpa using hk
      have ha : a ∉ t := (List.nodup_cons.mp hnd).1
      have hget : (a :: t).get ⟨k2 + 1, hk⟩ = t.get ⟨k2, hk2⟩ := rfl
      rw [hget, List.enumFrom_cons, List.map_cons]
      have hne : a ≠ t.get ⟨k2, hk2⟩ := fun he => ha (by rw [he]; exact t.get_mem _ _)
      show (if a = t.get ⟨k2, hk2⟩ then some (s + 1)
        else dictGet? ((t.enumFrom (s + 1)).map (fun iv => (iv.2, iv.1 + 1)))
          (t.get ⟨k2, hk2⟩)) = some (s + (k2 + 1) + 1)
      rw [if_neg hne, ih (List.nodup_cons.mp hnd).2 (s + 1) k2 hk2]
      congr 1
      omega

/-- The renaming dictionary of `reassign_names` maps the `k`-th sorted
variable to `k + 1`. -/
theorem ren_getD (L : List ℕ) (hnd : L.Nodup) (k : ℕ) (hk : k < L.length) :
    dictGetD (L.enum.foldl (fun d iv => dictSet d iv.2 (iv.1 + 1)) [])
      (L.get ⟨k, hk⟩) 0 = k + 1 := by
  have hfold : L.enum.foldl (fun d iv => dictSet d iv.2 (iv.1 + 1)) [] =
      L.enum.map (fun iv => (iv.2, iv.1 + 1)) :=
    foldl_dictSet_keyed Prod.snd (fun iv => iv.1 + 1) L.enum
      (by rw [List.enum_map_snd]; exact hnd)
  have h2 : dictGet? (L.enum.map (fun iv => (iv.2, iv.1 + 1))) (L.get ⟨k, hk⟩) =
      some (0 + k + 1) := enum_ren_get L hnd 0 k hk
  rw [dictGetD, hfold, h2]
  simp

/-- The new names produced by `reassign_names` are exactly `1..n` in
order. -/
theorem ren_map_keys (L : List ℕ) (hnd : L.Nodup) :
    L.map (fun old =>
      dictGetD (L.enum.foldl (fun d iv => dictSet d iv.2 (iv.1 + 1)) []) old 0) =
      List.range' 1 L.length := by
  apply List.ext_get
  · simp
  · intro n h1 h2
    simp only [List.get_eq_getElem, List.getElem_map, List.getElem_range']
    have hn : n < L.length := by simpa using h1
    have h3 : dictGetD (L.enum.foldl (fun d iv => dictSet d iv.2 (iv.1 + 1)) [])
        (L.get ⟨n, hn⟩) 0 = n + 1 := ren_getD L hnd n hn
    rw [List.get_eq_getElem] at h3
    rw [h3]
    omega

/-- C4: over duplicate-free placeholder variables with wellformed
duplicate-free parent lists, if the parent map is acyclic then
`topological_sort` succeeds and, after `reassign_names` (the `i`-th
sorted variable becomes `X(i+1)`, so the new names are exactly
`X1..Xn`), every parent's new numeric index is strictly smaller than its
child's new numeric index. -/
theorem claim_C4_topological_rename (VN : List ℕ) (vp : List (ℕ × List ℕ))
    (hnd : VN.Nodup) (hPnd : ∀ v ∈ VN, (dictGetD vp v []).Nodup)
    (hPsub : ∀ v ∈ VN, ∀ p ∈ dictGetD vp v [], p ∈ VN)
    (hacyc : ¬ hasCycleOn VN vp) :
    ∃ L, topological_sort VN vp = Except.ok L ∧
      (reassign_names L vp).1 = List.range' 1 VN.length ∧
      ∀ x ∈ (reassign_names L vp).2.1, ∀ p ∈ x.2, p < x.1 := by
  obtain ⟨L, hok⟩ := (topological_sort_spec VN vp hnd hPnd hPsub).2.1 hacyc
  obtain ⟨hLnd, hLperm, hLtopo, _⟩ := (topological_sort_spec VN vp hnd hPnd hPsub).1 L hok
  have hdef1 : (reassign_names L vp).1 = L.map (fun old =>
      dictGetD (L.enum.foldl (fun d iv => dictSet d iv.2 (iv.1 + 1)) []) old 0) := rfl
  have hdef2 : (reassign_names L vp).2.1 = L.foldl (fun np old =>
      dictSet np
        (dictGetD (L.enum.foldl (fun d iv => dictSet d iv.2 (iv.1 + 1)) []) old 0)
        ((dictGetD vp old []).map (fun p =>
          dictGetD (L.enum.foldl (fun d iv => dictSet d iv.2 (iv.1 + 1)) []) p 0))) [] := rfl
  have hkeys : (L.map (fun old =>
      dictGetD (L.enum.foldl (fun d iv => dictSet d iv.2 (iv.1 + 1)) []) old 0)).Nodup := by
    rw [ren_map_keys L hLnd]
    apply List.nodup_range'
    exact Nat.one_pos
  have hmapform : L.foldl (fun np old =>
      dictSet np
        (dictGetD (L.enum.foldl (fun d iv => dictSet d iv.2 (iv.1 + 1)) []) old 0)
        ((dictGetD vp old []).map (fun p =>
          dictGetD (L.enum.foldl (fun d iv => dictSet d iv.2 (iv.1 + 1)) []) p 0))) [] =
      L.map (fun old =>
        (dictGetD (L.enum.foldl (fun d iv => dictSet d iv.2 (iv.1 + 1)) []) old 0,
         (dictGetD vp old []).map (fun p =>
           dictGetD (L.enum.foldl (fun d iv => dictSet d iv.2 (iv.1 + 1)) []) p 0))) :=
    foldl_dictSet_keyed _ _ L hkeys
  refine ⟨L, hok, ?_, ?_⟩
  · rw [hdef1, ren_map_keys L hLnd, hLperm.length_eq]
  · intro x hx p hp
    rw [hdef2, hmapform] at hx
    obtain ⟨old, hold, hxval⟩ := List.mem_map.mp hx
    obtain ⟨⟨k, hk⟩, hgetk⟩ := List.mem_iff_get.mp hold
    rw [← hxval] at hp ⊢
    obtain ⟨par, hpar, hpval⟩ := List.mem_map.mp hp
    have htake : par ∈ L.take k := hLtopo k hk par (by rw [hgetk]; exact hpar)
    obtain ⟨j, hj, hjk, hgetj⟩ := mem_take_get htake
    have h1 : dictGetD (L.enum.foldl (fun d iv => dictSet d iv.2 (iv.1 + 1)) []) par 0 =
        j + 1 := by
      rw [← hgetj]
      exact ren_getD L hLnd j hj
    have h2 : dictGetD (L.enum.foldl (fun d iv => dictSet d iv.2 (iv.1 + 1)) []) old 0 =
        k + 1 := by
      rw [← hgetk]
      exact ren_getD L hLnd k hk
    rw [← hpval, h1, h2]
    omega

theorem claim_C4_witness :
    ∃ L, topological_sort [1, 2] [(1, ([] : List ℕ)), (2, [1])] = Except.ok L ∧
      (reassign_names L [(1, ([] : List ℕ)), (2, [1])]).1 = List.range' 1 2 ∧
      ∀ x ∈ (reassign_names L [(1, ([] : List ℕ)), (2, [1])]).2.1,
        ∀ p ∈ x.2, p < x.1 :=
  claim_C4_topological_rename [1, 2] [(1, []), (2, [1])] (by decide) (by decide)
    (by decide) (no_cycle_of_lt _ _ (by decide))

/-- C5: over duplicate-free placeholder variables with wellformed
duplicate-free parent lists, a cyclic parent map makes
`topological_sort` raise exactly `ValueError("Graph is not a DAG!")`;
it returns an order (necessarily a permutation of all variables, never
partial or truncated) if and only if the graph is acyclic. -/
theorem claim_C5_cycle_failure (VN : List ℕ) (vp : List (ℕ × List ℕ))
    (hnd : VN.Nodup) (hPnd : ∀ v ∈ VN, (dictGetD vp v []).Nodup)
    (hPsub : ∀ v ∈ VN, ∀ p ∈ dictGetD vp v [], p ∈ VN) :
    (hasCycleOn VN vp → topological_sort VN vp = Except.error "Graph is not a DAG!") ∧
    ((∃ L, topological_sort VN vp = Except.ok L) ↔ ¬ hasCycleOn VN vp) ∧
    (∀ L, topological_sort VN vp = Except.ok L → List.Perm L VN) := by
  have hs := topological_sort_spec VN vp hnd hPnd hPsub
  refine ⟨hs.2.2, ⟨?_, hs.2.1⟩, fun L hL => (hs.1 L hL).2.1⟩
  intro hex
  obtain ⟨L, hL⟩ := hex
  exact (hs.1 L hL).2.2.2

theorem claim_C5_witness :
    topological_sort [1, 2] [(1, [2]), (2, [1])] =
      Except.error "Graph is not a DAG!" :=
  (claim_C5_cycle_failure [1, 2] [(1, [2]), (2, [1])] (by decide) (by decide)
      (by decide)).1
    ⟨1, Relation.TransGen.head (b := 2) ⟨by decide, by decide⟩
      (Relation.TransGen.single ⟨by decide, by decide⟩)⟩
